import Mathlib

/-!
# The 100 prisoners simulation (`main.go`)

A shallow embedding of `runSimulation` and `run` from `main.go`, and theorems about them.

* Go `int` values (box contents, prisoner numbers, map keys) are `Int`; loop indices and
  counters, which never leave `0..101` (or `0..runs`), are `Nat`.
* A Go slice `[]int` is a `List Int`; an index out of range is the fault `indexOutOfRange`.
* A Go `map[int]int` is a partial function; looking up a missing key yields `0`.
* The process-global generator of `math/rand` is a tape of the values that the successive
  calls of `rand.Intn` return, together with the position of the next call.
* The `for !foundBox` loop has no syntactic bound, so it is run with fuel; running out of
  fuel is the fault `outOfFuel`.
-/

namespace Prisoners

/-! ## Run-time faults -/

/-- The ways in which the embedded program can stop without a result. -/
inductive Fault where
  | indexOutOfRange
  | invalidIntnArgument
  | outOfFuel
  deriving DecidableEq, Repr

/-! ## The global random generator -/

/-- State of the process-global generator: `tape n` is the value returned by the `n`-th call of
`rand.Intn` since seeding, `pos` counts the calls made so far. -/
structure Rng where
  tape : Nat → Nat
  pos : Nat

/-- Model of `rand.Intn(n)`: panics for `n <= 0`, otherwise returns the next value of the tape and
advances the generator. -/
def Rng.Intn (g : Rng) (n : Nat) : Except Fault (Nat × Rng) :=
  if n = 0 then .error .invalidIntnArgument
  else .ok (g.tape g.pos, ⟨g.tape, g.pos + 1⟩)

/-! ## Go maps -/

/-- A Go `map[int]int`: `none` for a key that is absent. -/
abbrev GoMap := Int → Option Int

/-- The empty map `map[int]int{}`. -/
def GoMap.empty : GoMap := fun _ => none

/-- The assignment `m[k] = v`. -/
def GoMap.set (m : GoMap) (k v : Int) : GoMap := fun x => if x = k then some v else m x

/-- The lookup `m[k]`, which is `0` for an absent key. -/
def GoMap.get (m : GoMap) (k : Int) : Int := (m k).getD 0

/-! ## `runSimulation` -/

/-- Lines 94-96: `for i := 1; i < 101; i++ { boxes = append(boxes, i) }`.
The first argument is the number of iterations left, `101 - i`. -/
def fillBoxes : Nat → Nat → List Int → List Int
  | 0, _, boxes => boxes
  | n + 1, i, boxes => fillBoxes n (i + 1) (boxes ++ [(i : Int)])

/-- Line 101: `boxes[i], boxes[j] = boxes[j], boxes[i]`. -/
def swap (boxes : List Int) (i j : Nat) : Except Fault (List Int) :=
  match boxes[i]?, boxes[j]? with
  | some bi, some bj => .ok ((boxes.set i bj).set j bi)
  | _, _ => .error .indexOutOfRange

/-- Lines 99-102: `for i := len(boxes) - 1; i > 0; i-- { j := rand.Intn(i + 1); swap }`.
The first argument is the current value of `i`. -/
def shuffleLoop : Nat → List Int → Rng → Except Fault (List Int × Rng)
  | 0, boxes, g => .ok (boxes, g)
  | i + 1, boxes, g =>
    match g.Intn (i + 1 + 1) with
    | .error e => .error e
    | .ok (j, g1) =>
      match swap boxes (i + 1) j with
      | .error e => .error e
      | .ok boxes1 => shuffleLoop i boxes1 g1

/-- Lines 105-107: `for i := 1; i < 101; i++ { room[i] = boxes[i-1] }`.
The first argument is the number of iterations left, `101 - i`. -/
def assignLoop : Nat → Nat → List Int → GoMap → Except Fault GoMap
  | 0, _, _, room => .ok room
  | n + 1, i, boxes, room =>
    match boxes[i - 1]? with
    | none => .error .indexOutOfRange
    | some v => assignLoop n (i + 1) boxes (room.set (i : Int) v)

/-- Lines 90-107: the boxes after the shuffle, the room built from them and the generator
after the shuffle. -/
def generateRoom (g : Rng) : Except Fault (List Int × GoMap × Rng) :=
  let room := GoMap.empty
  let boxes := fillBoxes 100 1 []
  match shuffleLoop (boxes.length - 1) boxes g with
  | .error e => .error e
  | .ok (boxes1, g1) =>
    match assignLoop 100 1 boxes1 room with
    | .error e => .error e
    | .ok room1 => .ok (boxes1, room1, g1)

/-- The local state of one prisoner when the loop `for !foundBox` (lines 131-149) is left.
`foundBox = false` means that the loop was left through `return false`. -/
structure Walk where
  foundBox : Bool
  attempts : Nat
  currentBoxContents : Int
  trail : List Int
  successfulPrisoners : List Int

/-- Lines 131-149: the loop `for !foundBox`. The first argument is fuel: an upper bound on the
number of times the loop body is entered. -/
def walkLoop (room : GoMap) (prisonerNumber : Int) :
    Nat → Nat → Int → List Int → List Int → Except Fault Walk
  | 0, _, _, _, _ => .error .outOfFuel
  | fuel + 1, attempts, currentBoxContents, trail, successfulPrisoners =>
    if attempts = 49 then
      .ok ⟨false, attempts, currentBoxContents, trail, successfulPrisoners⟩
    else
      let attempts1 := attempts + 1
      let trail1 := trail ++ [currentBoxContents]
      let nextBoxContents := room.get currentBoxContents
      if nextBoxContents = prisonerNumber then
        .ok ⟨true, attempts1, currentBoxContents, trail1,
          successfulPrisoners ++ [prisonerNumber]⟩
      else
        walkLoop room prisonerNumber fuel attempts1 nextBoxContents trail1 successfulPrisoners

/-- Lines 113-149: the body of the prisoner loop for one prisoner. The result is `none` when
the body executes `return false`, and the new `successfulPrisoners` otherwise. -/
def prisonerBody (fuel : Nat) (room : GoMap) (prisonerNumber : Int)
    (successfulPrisoners : List Int) : Except Fault (Option (List Int)) :=
  let initialBoxContents := room.get prisonerNumber
  if initialBoxContents = prisonerNumber then
    .ok (some (successfulPrisoners ++ [prisonerNumber]))
  else
    match walkLoop room prisonerNumber fuel 0 initialBoxContents [prisonerNumber]
        successfulPrisoners with
    | .error e => .error e
    | .ok w => if w.foundBox then .ok (some w.successfulPrisoners) else .ok none

/-- Lines 111-150: `for prisonerNumber := 1; prisonerNumber < 101; prisonerNumber++`.
The second argument is the number of iterations left, `101 - prisonerNumber`. The result is
`none` when some prisoner executes `return false`. -/
def prisonerLoop (fuel : Nat) (room : GoMap) :
    Nat → Nat → List Int → Except Fault (Option (List Int))
  | 0, _, successfulPrisoners => .ok (some successfulPrisoners)
  | n + 1, prisonerNumber, successfulPrisoners =>
    match prisonerBody fuel room (prisonerNumber : Int) successfulPrisoners with
    | .error e => .error e
    | .ok none => .ok none
    | .ok (some successfulPrisoners1) =>
      prisonerLoop fuel room n (prisonerNumber + 1) successfulPrisoners1

/-- Lines 109-152: the evaluation of a room. -/
def evaluateRoom (fuel : Nat) (room : GoMap) : Except Fault Bool :=
  let successfulPrisoners : List Int := []
  match prisonerLoop fuel room 100 1 successfulPrisoners with
  | .error e => .error e
  | .ok none => .ok false
  | .ok (some successfulPrisoners1) => .ok (decide (successfulPrisoners1.length = 100))

/-- Lines 89-153: `runSimulation`, with the global generator passed in and out. -/
def runSimulation (fuel : Nat) (g : Rng) : Except Fault (Bool × Rng) :=
  match generateRoom g with
  | .error e => .error e
  | .ok (_, room, g1) =>
    match evaluateRoom fuel room with
    | .error e => .error e
    | .ok success => .ok (success, g1)

/-! ## `run` -/

/-- The counters of `run` (lines 52-54). -/
structure Stats where
  attempts : Nat
  successes : Nat
  fails : Nat
  deriving DecidableEq, Repr

/-- Lines 60-69: `for i := 0; i < max; i++`. The second argument is the number of iterations
left, `max - i`. Progress display is not modelled. -/
def runLoop (fuel : Nat) : Nat → Stats → Rng → Except Fault (Stats × Rng)
  | 0, s, g => .ok (s, g)
  | n + 1, s, g =>
    let s1 : Stats := { s with attempts := s.attempts + 1 }
    match runSimulation fuel g with
    | .error e => .error e
    | .ok (success, g1) =>
      if success then runLoop fuel n { s1 with successes := s1.successes + 1 } g1
      else runLoop fuel n { s1 with fails := s1.fails + 1 } g1

/-- Lines 35-69 of `run`: `seeded` is the global generator after `rand.Seed(newSeed)`. The result
is the counters and the generator when the loop ends. Timing and printing are not modelled. -/
def run (fuel : Nat) (runs : Int) (seeded : Rng) : Except Fault (Stats × Rng) :=
  runLoop fuel runs.toNat ⟨0, 0, 0⟩ seeded

/-! ## `main` -/

/-- What `main` does that can be observed: a line printed, or a call of `run`. -/
inductive Event where
  | println (line : String)
  | callRun (runs : Int)
  deriving DecidableEq, Repr

/-- Lines 16-33: `main`, given the value `*runs` of the flag after `flag.Parse()` and the
generator that `run` seeds. The result is what `main` does, in order, and the result of
`run` if `run` is called. -/
def main (fuel : Nat) (runs : Int) (seeded : Rng) :
    List Event × Option (Except Fault (Stats × Rng)) :=
  if runs < 1 then
    ([.println "runs must be greater than 0"], none)
  else
    let warning : List Event :=
      if runs < 100 then
        [.println "[WARN] Less than 100 runs may return inaccurate results.\n"]
      else []
    (warning ++ [.callRun runs], some (run fuel runs seeded))

/-- The arguments of the calls of `run` among the events. -/
def runCalls : List Event → List Int
  | [] => []
  | .callRun runs :: es => runs :: runCalls es
  | .println _ :: es => runCalls es

/-! ## Notions used in the statements -/

/-- The next `n` values that `rand.Intn` will return. -/
def Rng.draws (g : Rng) (n : Nat) : List Nat :=
  (List.range n).map fun k => g.tape (g.pos + k)

/-- The draws of one trial respect the contract of `rand.Intn`: the `k`-th call of the shuffle is
`rand.Intn(100 - k)` and so returns a value `j` with `0 <= j <= 99 - k`. -/
def Admissible (g : Rng) : Prop :=
  ∀ k, k < 99 → g.tape (g.pos + k) ≤ 99 - k

instance (g : Rng) : Decidable (Admissible g) := by
  unfold Admissible; infer_instance

/-- The draws of `n` successive trials respect the contract of `rand.Intn`. -/
def AdmissibleRuns (n : Nat) (g : Rng) : Prop :=
  ∀ t, t < n → ∀ k, k < 99 → g.tape (g.pos + 99 * t + k) ≤ 99 - k

instance (n : Nat) (g : Rng) : Decidable (AdmissibleRuns n g) := by
  unfold AdmissibleRuns; infer_instance

/-- An admissible sequence of draws of one trial: 99 draws, the `k`-th of which is the
result of `rand.Intn(100 - k)`, a value `j` with `0 <= j <= 99 - k`. -/
def AdmissibleDraws (ds : List Nat) : Prop :=
  ds.length = 99 ∧ ∀ k, k < 99 → ds.getD k 0 ≤ 99 - k

instance (ds : List Nat) : Decidable (AdmissibleDraws ds) := by
  unfold AdmissibleDraws; infer_instance

/-- The generator whose tape starts with the given draws (and continues with zeros). -/
def rngOfDraws (ds : List Nat) : Rng := ⟨fun n => ds.getD n 0, 0⟩

/-- The boxes before the shuffle: `[1, 2, ..., 100]`. -/
def identityBoxes : List Int := (List.range' 1 100).map fun (i : Nat) => (i : Int)

/-- The room maps `1..100` one-to-one onto `1..100`. -/
def BijectiveRoom (room : GoMap) : Prop :=
  Set.BijOn room.get (Set.Icc 1 100) (Set.Icc 1 100)

/-- The list `outcomes` holds the results of successive calls of `runSimulation`, the first of
which finds the generator `g` and the last of which leaves the generator `g1`. -/
def Trials (fuel : Nat) : Rng → List Bool → Rng → Prop
  | g, [], g1 => g1 = g
  | g, b :: bs, g1 => ∃ g', runSimulation fuel g = .ok (b, g') ∧ Trials fuel g' bs g1

/-- Following the room from box `k` leads back to `k` within 50 lookups. -/
def Finds (room : GoMap) (k : Int) : Prop :=
  ∃ t, t < 50 ∧ room.get^[t + 1] k = k

instance (room : GoMap) (k : Int) : Decidable (Finds room k) := by
  unfold Finds; infer_instance

/-- Every prisoner `1..100` finds their number within 50 lookups. -/
def AllFind (room : GoMap) : Prop :=
  ∀ m, m < 100 → Finds room ((1 + m : Nat) : Int)

instance (room : GoMap) : Decidable (AllFind room) := by
  unfold AllFind; infer_instance

/-- The full conjunction of the specification: every prisoner of the list, taken alone,
finds their own number within 50 box openings. -/
def allFindAlone (room : GoMap) (order : List Int) : Bool :=
  order.all fun k => decide (Finds room k)

/-- The first `n` boxes on the way that starts at box `k` and goes from each box to the box
named by its contents: `k, room[k], room[room[k]], ...`. -/
def cyclePrefix (room : GoMap) (k : Int) (n : Nat) : List Int :=
  (List.range n).map fun t => room.get^[t] k

/-- The keys of the lookups `room[.]` that the body of the prisoner loop performs for one
prisoner, in order. Line 113 looks up `prisonerNumber`; each iteration of the walk loop that
passes the limit check looks up (line 140) the key that it has just appended to `trail`
(line 138), and `trail` starts as `[prisonerNumber]`: when the walk loop is entered, the keys
looked up are the elements of `trail` at the exit of the loop. -/
def lookupKeys (fuel : Nat) (room : GoMap) (prisonerNumber : Int) : Except Fault (List Int) :=
  if room.get prisonerNumber = prisonerNumber then .ok [prisonerNumber]
  else
    match walkLoop room prisonerNumber fuel 0 (room.get prisonerNumber) [prisonerNumber] [] with
    | .error e => .error e
    | .ok w => .ok w.trail

/-- The loop of lines 131-149 with the limit check of lines 132-135 left out. This is not
code of the program: it is the walk without the attempt limit, used to state what the limit
changes. The first argument is fuel. -/
def walkLoopNoLimit (room : GoMap) (prisonerNumber : Int) :
    Nat → Nat → Int → List Int → List Int → Except Fault Walk
  | 0, _, _, _, _ => .error .outOfFuel
  | fuel + 1, attempts, currentBoxContents, trail, successfulPrisoners =>
    let attempts1 := attempts + 1
    let trail1 := trail ++ [currentBoxContents]
    let nextBoxContents := room.get currentBoxContents
    if nextBoxContents = prisonerNumber then
      .ok ⟨true, attempts1, currentBoxContents, trail1,
        successfulPrisoners ++ [prisonerNumber]⟩
    else
      walkLoopNoLimit room prisonerNumber fuel attempts1 nextBoxContents trail1
        successfulPrisoners

/-- One iteration of the shuffle loop as it can be observed: the position `i`, the argument
`bound` of the call `rand.Intn(i + 1)`, the draw `j` and the slice `boxes` before and after
the swap. -/
structure ShuffleStep where
  i : Nat
  bound : Nat
  j : Nat
  before : List Int
  after : List Int

/-- The iterations that `shuffleLoop` executes, in order. The definition follows `shuffleLoop`
and records each iteration that completes. -/
def shuffleSteps : Nat → List Int → Rng → List ShuffleStep
  | 0, _, _ => []
  | i + 1, boxes, g =>
    match g.Intn (i + 1 + 1) with
    | .error _ => []
    | .ok (j, g1) =>
      match swap boxes (i + 1) j with
      | .error _ => []
      | .ok boxes1 => ⟨i + 1, i + 1 + 1, j, boxes, boxes1⟩ :: shuffleSteps i boxes1 g1

/-! ## Auxiliary definitions for the proofs -/

/-- What `swap` yields when both indices are in range. -/
def swapPure (boxes : List Int) (i j : Nat) : List Int :=
  (boxes.set i (boxes.getD j 0)).set j (boxes.getD i 0)

/-- The shuffle as a function of the list of draws. -/
def shufflePure : Nat → List Int → List Nat → List Int
  | i + 1, boxes, j :: ds => shufflePure i (swapPure boxes (i + 1) j) ds
  | _, boxes, _ => boxes

/-- The list `ds` holds one draw `j <= i` for each `i` from the given one down to `1`. -/
def DrawsFrom : Nat → List Nat → Prop
  | 0, ds => ds = []
  | _ + 1, [] => False
  | i + 1, j :: ds => j ≤ i + 1 ∧ DrawsFrom i ds

/-- The room that lines 105-107 build from the shuffled boxes: keys `1..100`, with
`room[i] = boxes[i-1]`. -/
def roomOf (boxes : List Int) : GoMap :=
  fun x => if 1 ≤ x ∧ x ≤ 100 then boxes[(x - 1).toNat]? else none

/-! ## Concrete inputs -/

/-- The generator all of whose draws are `j = i`: the tape is `99, 98, ..., 1, 0, 0, ...`. -/
def identityDraws : Rng := ⟨fun n => 99 - n, 0⟩

/-- The generator all of whose draws are `j = 0`. -/
def zeroDraws : Rng := ⟨fun _ => 0, 0⟩

/-- A generator at position 5 whose next 99 draws are `j = 0` and whose later draws are 7. -/
def laterDraws : Rng := ⟨fun n => if n < 104 then 0 else 7, 5⟩

/-- Boxes `[2, ..., 50, 1, 52, ..., 100, 51]`: two cycles of length 50. -/
def boxesTwoFifty : List Int :=
  (List.range' 2 49).map (fun (i : Nat) => (i : Int)) ++ [1] ++
    (List.range' 52 49).map (fun (i : Nat) => (i : Int)) ++ [51]

/-- Boxes `[2, ..., 51, 1, 53, ..., 100, 52]`: a cycle of length 51 and one of length 49. -/
def boxesFiftyOne : List Int :=
  (List.range' 2 50).map (fun (i : Nat) => (i : Int)) ++ [1] ++
    (List.range' 53 48).map (fun (i : Nat) => (i : Int)) ++ [52]

/-- Boxes `[2, 3, ..., 100, 1]`: a single cycle of length 100. -/
def boxesRotated : List Int :=
  (List.range' 2 99).map (fun (i : Nat) => (i : Int)) ++ [1]

/-! ## The boxes before the shuffle -/

theorem fillBoxes_eq (n i : Nat) (boxes : List Int) :
    fillBoxes n i boxes = boxes ++ (List.range' i n).map fun (i : Nat) => (i : Int) := by
  induction n generalizing i boxes with
  | zero => simp [fillBoxes]
  | succ n ih => simp [fillBoxes, ih, List.range'_succ]

theorem fillBoxes_identity : fillBoxes 100 1 [] = identityBoxes := by
  rw [fillBoxes_eq]; rfl

theorem identityBoxes_length : identityBoxes.length = 100 := by
  simp [identityBoxes]

theorem identityBoxes_nodup : identityBoxes.Nodup := by
  unfold identityBoxes
  exact (List.nodup_range' 1 100).map (fun a b h => by exact_mod_cast h)

theorem mem_identityBoxes (v : Int) : v ∈ identityBoxes ↔ 1 ≤ v ∧ v ≤ 100 := by
  unfold identityBoxes
  simp only [List.mem_map, List.mem_range']
  constructor
  · rintro ⟨a, ⟨k, hk, rfl⟩, rfl⟩
    omega
  · intro h
    exact ⟨v.toNat, ⟨v.toNat - 1, by omega, by omega⟩, by omega⟩

theorem identityBoxes_getElem? (m : Nat) (h : m < 100) :
    identityBoxes[m]? = some ((m : Int) + 1) := by
  unfold identityBoxes
  rw [List.getElem?_map, List.getElem?_range' _ _ h]
  simp
  omega

/-! ### Swapping two positions -/

theorem perm_cons_set (t : List Int) (j : Nat) (a b : Int) (h : t[j]? = some b) :
    (b :: t.set j a).Perm (a :: t) := by
  induction t generalizing j with
  | nil => simp at h
  | cons c u ih =>
    cases j with
    | zero =>
      simp at h
      subst h
      simpa using List.Perm.swap a c u
    | succ j =>
      simp at h
      have h1 := ih j h
      simp only [List.set_cons_succ]
      exact ((List.Perm.swap _ _ _).trans (h1.cons c)).trans (List.Perm.swap _ _ _)

theorem perm_set_set_lt (l : List Int) (i j : Nat) (bi bj : Int) (hij : i < j)
    (hi : l[i]? = some bi) (hj : l[j]? = some bj) :
    ((l.set i bj).set j bi).Perm l := by
  induction l generalizing i j with
  | nil => simp at hi
  | cons a t ih =>
    cases j with
    | zero => omega
    | succ j =>
      cases i with
      | zero =>
        simp at hi hj
        subst hi
        simpa using perm_cons_set t j a bj hj
      | succ i =>
        simp at hi hj
        simpa using ih i j (by omega) hi hj

theorem perm_set_set (l : List Int) (i j : Nat) (bi bj : Int)
    (hi : l[i]? = some bi) (hj : l[j]? = some bj) :
    ((l.set i bj).set j bi).Perm l := by
  rcases Nat.lt_trichotomy i j with h | h | h
  · exact perm_set_set_lt l i j bi bj h hi hj
  · subst h
    rw [hi] at hj
    cases hj
    have hlt : i < l.length := by
      by_contra hc
      simp [List.getElem?_eq_none (Nat.le_of_not_lt hc)] at hi
    have : l.set i bi = l := by
      apply List.ext_getElem?
      intro n
      by_cases hn : i = n
      · subst hn; simp [List.getElem?_set, hlt, hi]
      · simp [List.getElem?_set_ne hn]
    simp [this]
  · rw [List.set_comm _ _ _ (Nat.ne_of_gt h)]
    exact perm_set_set_lt l j i bj bi h hj hi

theorem swap_eq_ok (boxes : List Int) (i j : Nat) (hi : i < boxes.length)
    (hj : j < boxes.length) : swap boxes i j = .ok (swapPure boxes i j) := by
  simp [swap, swapPure, List.getElem?_eq_getElem hi, List.getElem?_eq_getElem hj]

theorem swapPure_length (boxes : List Int) (i j : Nat) :
    (swapPure boxes i j).length = boxes.length := by
  simp [swapPure]

theorem swapPure_perm (boxes : List Int) (i j : Nat) (hi : i < boxes.length)
    (hj : j < boxes.length) : (swapPure boxes i j).Perm boxes := by
  unfold swapPure
  apply perm_set_set
  · simp [List.getElem?_eq_getElem hi]
  · simp [List.getElem?_eq_getElem hj]

theorem swapPure_getElem?_left (boxes : List Int) (i j : Nat) (hi : i < boxes.length)
    (hj : j < boxes.length) : (swapPure boxes i j)[i]? = boxes[j]? := by
  unfold swapPure
  by_cases h : j = i
  · subst h; simp [List.getElem?_set, hj]
  · rw [List.getElem?_set_ne h]
    simp [List.getElem?_set, hi, List.getElem?_eq_getElem hj]

theorem swapPure_getElem?_other (boxes : List Int) (i j m : Nat) (hi : m ≠ i) (hj : m ≠ j) :
    (swapPure boxes i j)[m]? = boxes[m]? := by
  unfold swapPure
  rw [List.getElem?_set_ne (Ne.symm hj), List.getElem?_set_ne (Ne.symm hi)]

/-! ### The shuffle as a function of the draws -/

theorem draws_succ (g : Rng) (n : Nat) :
    g.draws (n + 1) = g.tape g.pos :: Rng.draws ⟨g.tape, g.pos + 1⟩ n := by
  simp only [Rng.draws, List.range_succ_eq_map, List.map_cons, List.map_map, Nat.add_zero]
  congr 1
  apply List.map_congr_left
  intro k _
  simp only [Function.comp_apply, Nat.succ_eq_add_one]
  congr 1
  omega

theorem draws_length (g : Rng) (n : Nat) : (g.draws n).length = n := by
  simp [Rng.draws]

theorem drawsFrom_draws (i : Nat) (g : Rng)
    (h : ∀ k, k < i → g.tape (g.pos + k) ≤ i - k) : DrawsFrom i (g.draws i) := by
  induction i generalizing g with
  | zero => simp [DrawsFrom, Rng.draws]
  | succ i ih =>
    rw [draws_succ]
    refine ⟨by simpa using h 0 (by omega), ih _ ?_⟩
    intro k hk
    have := h (k + 1) (by omega)
    simp only at this ⊢
    rw [show g.pos + 1 + k = g.pos + (k + 1) by omega]
    omega

theorem drawsFrom_length (i : Nat) (ds : List Nat) (h : DrawsFrom i ds) : ds.length = i := by
  induction i generalizing ds with
  | zero => simp [DrawsFrom] at h; simp [h]
  | succ i ih =>
    cases ds with
    | nil => simp [DrawsFrom] at h
    | cons j ds => simp [DrawsFrom] at h; simp [ih ds h.2]

theorem shuffleLoop_eq (i : Nat) (boxes : List Int) (g : Rng) (hlen : i < boxes.length)
    (h : ∀ k, k < i → g.tape (g.pos + k) ≤ i - k) :
    shuffleLoop i boxes g = .ok (shufflePure i boxes (g.draws i), ⟨g.tape, g.pos + i⟩) := by
  induction i generalizing boxes g with
  | zero => simp [shuffleLoop, shufflePure]
  | succ i ih =>
    have h0 : g.tape g.pos ≤ i + 1 := by simpa using h 0 (by omega)
    rw [draws_succ]
    simp only [shuffleLoop, Rng.Intn, shufflePure]
    rw [if_neg (by omega)]
    simp only
    rw [swap_eq_ok boxes (i + 1) (g.tape g.pos) hlen (by omega)]
    simp only
    rw [ih (swapPure boxes (i + 1) (g.tape g.pos)) ⟨g.tape, g.pos + 1⟩
      (by rw [swapPure_length]; omega) ?_]
    · simp only [Except.ok.injEq, Prod.mk.injEq, Rng.mk.injEq, true_and]
      omega
    · intro k hk
      have := h (k + 1) (by omega)
      simp only
      rw [show g.pos + 1 + k = g.pos + (k + 1) by omega]
      omega

theorem shufflePure_length (i : Nat) (boxes : List Int) (ds : List Nat) :
    (shufflePure i boxes ds).length = boxes.length := by
  induction i generalizing boxes ds with
  | zero => simp [shufflePure]
  | succ i ih =>
    cases ds with
    | nil => simp [shufflePure]
    | cons j ds => simp [shufflePure, ih, swapPure_length]

theorem shufflePure_perm (i : Nat) (boxes : List Int) (ds : List Nat) (hlen : i < boxes.length)
    (h : DrawsFrom i ds) : (shufflePure i boxes ds).Perm boxes := by
  induction i generalizing boxes ds with
  | zero => simp [shufflePure]
  | succ i ih =>
    cases ds with
    | nil => simp [shufflePure]
    | cons j ds =>
      simp only [DrawsFrom] at h
      simp only [shufflePure]
      exact (ih _ ds (by rw [swapPure_length]; omega) h.2).trans
        (swapPure_perm boxes (i + 1) j hlen (by omega))

/-- Positions above the current one are not touched any more. -/
theorem shufflePure_getElem?_above (i : Nat) (boxes : List Int) (ds : List Nat)
    (h : DrawsFrom i ds) (m : Nat) (hm : i < m) :
    (shufflePure i boxes ds)[m]? = boxes[m]? := by
  induction i generalizing boxes ds with
  | zero => simp [shufflePure]
  | succ i ih =>
    cases ds with
    | nil => simp [shufflePure]
    | cons j ds =>
      simp only [DrawsFrom] at h
      simp only [shufflePure]
      rw [ih _ ds h.2 (by omega)]
      exact swapPure_getElem?_other boxes (i + 1) j m (by omega) (by omega)

theorem shufflePure_inj (i : Nat) (boxes : List Int) (ds ds' : List Nat)
    (hnd : boxes.Nodup) (hlen : i < boxes.length) (h : DrawsFrom i ds) (h' : DrawsFrom i ds')
    (heq : shufflePure i boxes ds = shufflePure i boxes ds') : ds = ds' := by
  induction i generalizing boxes ds ds' with
  | zero => simp [DrawsFrom] at h h'; simp [h, h']
  | succ i ih =>
    cases ds with
    | nil => simp [DrawsFrom] at h
    | cons j ds =>
      cases ds' with
      | nil => simp [DrawsFrom] at h'
      | cons j' ds' =>
        simp only [DrawsFrom] at h h'
        simp only [shufflePure] at heq
        have e1 := shufflePure_getElem?_above i (swapPure boxes (i + 1) j) ds h.2 (i + 1)
          (by omega)
        have e2 := shufflePure_getElem?_above i (swapPure boxes (i + 1) j') ds' h'.2 (i + 1)
          (by omega)
        rw [heq, e2, swapPure_getElem?_left boxes (i + 1) j' hlen (by omega),
          swapPure_getElem?_left boxes (i + 1) j hlen (by omega)] at e1
        have hj : j < boxes.length := by omega
        have hj' : j' < boxes.length := by omega
        rw [List.getElem?_eq_getElem hj, List.getElem?_eq_getElem hj'] at e1
        have hjj : j' = j := (hnd.getElem_inj_iff).1 (Option.some.inj e1)
        subst hjj
        have := ih (swapPure boxes (i + 1) j') ds ds'
          ((swapPure_perm boxes (i + 1) j' hlen hj).nodup_iff.2 hnd)
          (by rw [swapPure_length]; omega) h.2 h'.2 heq
        rw [this]

theorem eq_of_perm_of_tail_agree (p boxes : List Int) (hp : p.Perm boxes)
    (h : ∀ m, 0 < m → p[m]? = boxes[m]?) : p = boxes := by
  cases p with
  | nil => exact (List.nil_perm.1 hp).symm ▸ rfl
  | cons a t =>
    cases boxes with
    | nil => simpa using hp.length_eq
    | cons b u =>
      have htu : t = u := by
        apply List.ext_getElem?
        intro n
        simpa using h (n + 1) (by omega)
      subst htu
      have hs := hp.sum_eq
      simp only [List.sum_cons] at hs
      have hab : a = b := by omega
      rw [hab]

theorem shufflePure_surj (i : Nat) (boxes p : List Int)
    (hnd : boxes.Nodup) (hlen : i < boxes.length) (hp : p.Perm boxes)
    (hag : ∀ m, i < m → p[m]? = boxes[m]?) :
    ∃ ds, DrawsFrom i ds ∧ shufflePure i boxes ds = p := by
  induction i generalizing boxes with
  | zero =>
    exact ⟨[], by simp [DrawsFrom], by
      simp only [shufflePure]
      exact (eq_of_perm_of_tail_agree p boxes hp hag).symm⟩
  | succ i ih =>
    have hpl : p.length = boxes.length := hp.length_eq
    have hpn : p.Nodup := hp.nodup_iff.2 hnd
    have hi1 : i + 1 < p.length := by omega
    have hmem : p[i + 1] ∈ boxes := hp.subset (List.getElem_mem hi1)
    obtain ⟨j, hj, hjv⟩ := List.getElem_of_mem hmem
    have hjle : j ≤ i + 1 := by
      by_contra hc
      have h1 := hag j (by omega)
      have hjp : j < p.length := by omega
      rw [List.getElem?_eq_getElem hjp, List.getElem?_eq_getElem hj] at h1
      have h2 : p[j] = p[i + 1] := (Option.some.inj h1).trans hjv
      have := (hpn.getElem_inj_iff).1 h2
      omega
    have hsw := swapPure_perm boxes (i + 1) j hlen hj
    obtain ⟨ds, hds, hres⟩ := ih (swapPure boxes (i + 1) j) (hsw.nodup_iff.2 hnd)
      (by rw [swapPure_length]; omega) (hp.trans hsw.symm) (by
        intro m hm
        by_cases hmi : m = i + 1
        · subst hmi
          rw [swapPure_getElem?_left boxes (i + 1) j hlen hj, List.getElem?_eq_getElem hi1,
            List.getElem?_eq_getElem hj, hjv]
        · rw [swapPure_getElem?_other boxes (i + 1) j m hmi (by omega)]
          exact hag m (by omega))
    exact ⟨j :: ds, ⟨hjle, hds⟩, by simpa [shufflePure] using hres⟩

/-! ### Building the room -/

theorem assignLoop_eq (n i : Nat) (boxes : List Int) (room : GoMap) (hi : 1 ≤ i)
    (hlen : i + n ≤ boxes.length + 1) :
    assignLoop n i boxes room =
      .ok (fun x => if (i : Int) ≤ x ∧ x < (i : Int) + n then boxes[(x - 1).toNat]?
        else room x) := by
  induction n generalizing i room with
  | zero =>
    simp only [assignLoop, Except.ok.injEq]
    funext x
    rw [if_neg]
    push_cast
    omega
  | succ n ih =>
    have hlt : i - 1 < boxes.length := by omega
    simp only [assignLoop, List.getElem?_eq_getElem hlt]
    rw [ih (i + 1) _ (by omega) (by omega)]
    simp only [Except.ok.injEq]
    funext x
    by_cases hx : x = (i : Int)
    · subst hx
      rw [if_neg (by push_cast; omega), if_pos (by push_cast; omega)]
      simp only [GoMap.set, if_true]
      have : ((i : Int) - 1).toNat = i - 1 := by omega
      rw [this, List.getElem?_eq_getElem hlt]
    · by_cases hr : ((i : Int) + 1 ≤ x ∧ x < (i : Int) + 1 + n)
      · rw [if_pos (by push_cast; exact hr), if_pos (by push_cast; omega)]
      · rw [if_neg (by push_cast; exact hr), if_neg (by push_cast; omega)]
        simp [GoMap.set, hx]

theorem assignLoop_roomOf (boxes : List Int) (hlen : boxes.length = 100) :
    assignLoop 100 1 boxes GoMap.empty = .ok (roomOf boxes) := by
  rw [assignLoop_eq 100 1 boxes _ (by omega) (by omega)]
  simp only [Except.ok.injEq]
  funext x
  unfold roomOf GoMap.empty
  by_cases hx : 1 ≤ x ∧ x ≤ 100
  · rw [if_pos hx, if_pos (by push_cast; omega)]
  · rw [if_neg hx, if_neg (by push_cast; omega)]

theorem roomOf_get (boxes : List Int) (n : Nat) (hn : n < 100) :
    (roomOf boxes).get ((n : Int) + 1) = boxes[n]?.getD 0 := by
  unfold GoMap.get roomOf
  rw [if_pos (by omega)]
  have : ((n : Int) + 1 - 1).toNat = n := by omega
  rw [this]

theorem roomOf_isSome (boxes : List Int) (hlen : boxes.length = 100) (x : Int) :
    (roomOf boxes x).isSome = true ↔ 1 ≤ x ∧ x ≤ 100 := by
  unfold roomOf
  by_cases hx : 1 ≤ x ∧ x ≤ 100
  · rw [if_pos hx]
    have : (x - 1).toNat < boxes.length := by omega
    rw [List.getElem?_eq_getElem this]
    simp [hx]
  · rw [if_neg hx]
    simp [hx]

theorem roomOf_bijective (boxes : List Int) (hp : boxes.Perm identityBoxes) :
    BijectiveRoom (roomOf boxes) := by
  have hlen : boxes.length = 100 := by rw [hp.length_eq, identityBoxes_length]
  have hnd : boxes.Nodup := hp.nodup_iff.2 identityBoxes_nodup
  have key : ∀ x : Int, 1 ≤ x → x ≤ 100 → ∃ (n : Nat) (h : n < boxes.length),
      x = (n : Int) + 1 ∧ (roomOf boxes).get x = boxes[n] := by
    intro x h1 h2
    refine ⟨(x - 1).toNat, by omega, by omega, ?_⟩
    have hn : (x - 1).toNat < 100 := by omega
    have hx : x = (((x - 1).toNat : Nat) : Int) + 1 := by omega
    conv => lhs; rw [hx]
    rw [roomOf_get boxes _ hn, List.getElem?_eq_getElem (by omega)]
    rfl
  refine ⟨?_, ?_, ?_⟩
  · intro x hx
    obtain ⟨n, hn, -, hv⟩ := key x hx.1 hx.2
    have : boxes[n] ∈ identityBoxes := hp.subset (List.getElem_mem hn)
    rw [hv]
    exact (mem_identityBoxes _).1 this
  · intro x hx y hy hxy
    obtain ⟨n, hn, hxn, hv⟩ := key x hx.1 hx.2
    obtain ⟨m, hm, hym, hw⟩ := key y hy.1 hy.2
    rw [hv, hw] at hxy
    have := (hnd.getElem_inj_iff).1 hxy
    omega
  · intro v hv
    have hmem : v ∈ boxes := hp.symm.subset ((mem_identityBoxes v).2 hv)
    obtain ⟨n, hn, hnv⟩ := List.getElem_of_mem hmem
    refine ⟨(n : Int) + 1, ⟨by omega, by omega⟩, ?_⟩
    rw [roomOf_get boxes n (by omega), List.getElem?_eq_getElem hn]
    exact hnv

theorem generateRoom_eq (g : Rng) (h : Admissible g) :
    generateRoom g = .ok (shufflePure 99 identityBoxes (g.draws 99),
      roomOf (shufflePure 99 identityBoxes (g.draws 99)), ⟨g.tape, g.pos + 99⟩) := by
  unfold generateRoom
  simp only [fillBoxes_identity, identityBoxes_length]
  rw [shuffleLoop_eq 99 identityBoxes g (by rw [identityBoxes_length]; omega) h]
  simp only
  rw [assignLoop_roomOf _ (by rw [shufflePure_length, identityBoxes_length])]

theorem shuffled_perm (g : Rng) (h : Admissible g) :
    (shufflePure 99 identityBoxes (g.draws 99)).Perm identityBoxes :=
  shufflePure_perm 99 identityBoxes _ (by rw [identityBoxes_length]; omega)
    (drawsFrom_draws 99 g h)

/-! ### The walk of one prisoner -/

theorem walkLoop_spec (room : GoMap) (k : Int) (fuel a : Nat) (c : Int) (trail sp : List Int)
    (ha : a ≤ 49) (hfuel : 50 ≤ fuel + a) :
    ∃ w, walkLoop room k fuel a c trail sp = .ok w ∧ a ≤ w.attempts ∧ w.attempts ≤ 49 ∧
      (w.foundBox = true ↔ ∃ t, t < 49 - a ∧ room.get^[t + 1] c = k) ∧
      (w.foundBox = true → w.successfulPrisoners = sp ++ [k]) ∧
      (w.foundBox = false → w.successfulPrisoners = sp ∧ w.attempts = 49) := by
  induction fuel generalizing a c trail with
  | zero => omega
  | succ fuel ih =>
    unfold walkLoop
    by_cases h49 : a = 49
    · subst h49
      simp
    · rw [if_neg h49]
      simp only
      by_cases hnext : room.get c = k
      · rw [if_pos hnext]
        refine ⟨_, rfl, by simp, by simp; omega, ?_, by simp, by simp⟩
        simp only [true_iff]
        exact ⟨0, by omega, by simpa using hnext⟩
      · rw [if_neg hnext]
        obtain ⟨w, hw, h1, h2, h3, h4, h5⟩ :=
          ih (a + 1) (room.get c) (trail ++ [c]) (by omega) (by omega)
        refine ⟨w, hw, by omega, h2, ?_, h4, h5⟩
        rw [h3]
        constructor
        · rintro ⟨t, ht, hk⟩
          exact ⟨t + 1, by omega, by rw [Function.iterate_succ_apply]; exact hk⟩
        · rintro ⟨t, ht, hk⟩
          cases t with
          | zero => exact absurd (by simpa using hk) hnext
          | succ t =>
            exact ⟨t, by omega, by rw [Function.iterate_succ_apply] at hk; exact hk⟩

theorem finds_iff (room : GoMap) (k : Int) :
    Finds room k ↔ room.get k = k ∨ ∃ t, t < 49 ∧ room.get^[t + 1] (room.get k) = k := by
  constructor
  · rintro ⟨t, ht, hk⟩
    cases t with
    | zero => left; simpa using hk
    | succ t =>
      right
      exact ⟨t, by omega, by rw [Function.iterate_succ_apply] at hk; exact hk⟩
  · rintro (h | ⟨t, ht, hk⟩)
    · exact ⟨0, by omega, by simpa using h⟩
    · exact ⟨t + 1, by omega, by rw [Function.iterate_succ_apply]; exact hk⟩

theorem prisonerBody_spec (fuel : Nat) (room : GoMap) (k : Int) (sp : List Int)
    (hfuel : 50 ≤ fuel) :
    prisonerBody fuel room k sp = .ok (if Finds room k then some (sp ++ [k]) else none) := by
  unfold prisonerBody
  simp only
  by_cases h0 : room.get k = k
  · rw [if_pos h0, if_pos ((finds_iff room k).2 (Or.inl h0))]
  · rw [if_neg h0]
    obtain ⟨w, hw, -, -, h3, h4, h5⟩ :=
      walkLoop_spec room k fuel 0 (room.get k) [k] sp (by omega) (by omega)
    rw [hw]
    simp only
    by_cases hf : w.foundBox = true
    · rw [if_pos hf, h4 hf, if_pos]
      exact (finds_iff room k).2 (Or.inr (by simpa using h3.1 hf))
    · rw [if_neg hf, if_neg]
      intro hfind
      rcases (finds_iff room k).1 hfind with h | h
      · exact h0 h
      · exact hf (h3.2 (by simpa using h))

theorem prisonerLoop_spec (fuel : Nat) (room : GoMap) (n p : Nat) (sp : List Int)
    (hfuel : 50 ≤ fuel) :
    prisonerLoop fuel room n p sp =
      .ok (if ∀ m, m < n → Finds room ((p + m : Nat) : Int) then
        some (sp ++ (List.range' p n).map fun (i : Nat) => (i : Int)) else none) := by
  induction n generalizing p sp with
  | zero => simp [prisonerLoop]
  | succ n ih =>
    unfold prisonerLoop
    rw [prisonerBody_spec fuel room _ sp hfuel]
    by_cases hp : Finds room (p : Int)
    · rw [if_pos hp]
      simp only
      rw [ih (p + 1)]
      by_cases hall : ∀ m, m < n → Finds room ((p + 1 + m : Nat) : Int)
      · rw [if_pos hall, if_pos]
        · simp [List.range'_succ]
        · intro m hm
          cases m with
          | zero => simpa using hp
          | succ m =>
            have := hall m (by omega)
            rwa [show p + 1 + m = p + (m + 1) by omega] at this
      · rw [if_neg hall, if_neg]
        intro h
        apply hall
        intro m hm
        have := h (m + 1) (by omega)
        rwa [show p + (m + 1) = p + 1 + m by omega] at this
    · rw [if_neg hp]
      simp only
      rw [if_neg]
      intro h
      exact hp (by simpa using h 0 (by omega))

theorem evaluateRoom_spec (fuel : Nat) (room : GoMap) (hfuel : 50 ≤ fuel) :
    evaluateRoom fuel room =
      .ok (decide (AllFind room)) := by
  unfold evaluateRoom
  simp only
  rw [prisonerLoop_spec fuel room 100 1 [] hfuel]
  by_cases hall : AllFind room
  · rw [if_pos (show ∀ m, m < 100 → Finds room ((1 + m : Nat) : Int) from hall)]
    simp [hall]
  · rw [if_neg (show ¬ ∀ m, m < 100 → Finds room ((1 + m : Nat) : Int) from hall)]
    simp [hall]

theorem allFind_iff (room : GoMap) :
    AllFind room ↔
      ∀ k : Int, 1 ≤ k → k ≤ 100 → Finds room k := by
  constructor
  · intro h k h1 h2
    have := h (k - 1).toNat (by omega)
    rwa [show (((1 + (k - 1).toNat : Nat)) : Int) = k by omega] at this
  · intro h m hm
    exact h _ (by omega) (by omega)

/-! ### Cycles of the room -/

theorem injOn_iterate (f : Int → Int) (s : Set Int) (hm : Set.MapsTo f s s)
    (hi : Set.InjOn f s) (n : Nat) : Set.InjOn f^[n] s := by
  induction n with
  | zero => simpa using Set.injOn_id s
  | succ n ih =>
    intro x hx y hy hxy
    rw [Function.iterate_succ_apply', Function.iterate_succ_apply'] at hxy
    exact ih hx hy (hi (hm.iterate n hx) (hm.iterate n hy) hxy)

/-- In a bijective room every box `1..100` lies on a cycle, of length at most 100. -/
theorem exists_return (room : GoMap) (hb : BijectiveRoom room) (k : Int)
    (h1 : 1 ≤ k) (h2 : k ≤ 100) : ∃ t, 0 < t ∧ t ≤ 100 ∧ room.get^[t] k = k := by
  have hk : k ∈ Set.Icc (1 : Int) 100 := ⟨h1, h2⟩
  have hmaps : ∀ i ∈ Finset.range 101, room.get^[i] k ∈ Finset.Icc (1 : Int) 100 := by
    intro i _
    have := hb.mapsTo.iterate i hk
    exact Finset.mem_Icc.2 this
  have hcard : (Finset.Icc (1 : Int) 100).card < (Finset.range 101).card := by
    rw [Int.card_Icc, Finset.card_range]; decide
  obtain ⟨i, hi, j, hj, hne, heq⟩ :=
    Finset.exists_ne_map_eq_of_card_lt_of_maps_to hcard hmaps
  rw [Finset.mem_range] at hi hj
  have key : ∀ a b : Nat, a < b → b < 101 → room.get^[a] k = room.get^[b] k →
      ∃ t, 0 < t ∧ t ≤ 100 ∧ room.get^[t] k = k := by
    intro a b hab hb101 he
    refine ⟨b - a, by omega, by omega, ?_⟩
    have e1 : room.get^[b] k = room.get^[a] (room.get^[b - a] k) := by
      rw [← Function.iterate_add_apply]
      congr 1
      omega
    rw [e1] at he
    exact (injOn_iterate room.get _ hb.mapsTo hb.injOn a hk
      (hb.mapsTo.iterate (b - a) hk) he).symm
  rcases Nat.lt_or_gt_of_ne hne with h | h
  · exact key i j h hj heq
  · exact key j i h hi heq.symm

theorem finds_iff_minimalPeriod (room : GoMap) (k : Int) :
    Finds room k ↔
      0 < Function.minimalPeriod room.get k ∧ Function.minimalPeriod room.get k ≤ 50 := by
  constructor
  · rintro ⟨t, ht, hk⟩
    have hper : Function.IsPeriodicPt room.get (t + 1) k := hk
    have hle := hper.minimalPeriod_le (by omega)
    exact ⟨Function.minimalPeriod_pos_of_mem_periodicPts
      (Function.mk_mem_periodicPts (by omega) hper), by omega⟩
  · rintro ⟨hpos, hle⟩
    refine ⟨Function.minimalPeriod room.get k - 1, by omega, ?_⟩
    rw [show Function.minimalPeriod room.get k - 1 + 1 = Function.minimalPeriod room.get k
      by omega]
    exact Function.iterate_minimalPeriod

theorem minimalPeriod_pos (room : GoMap) (hb : BijectiveRoom room) (k : Int)
    (h1 : 1 ≤ k) (h2 : k ≤ 100) : 0 < Function.minimalPeriod room.get k := by
  obtain ⟨t, ht, -, hk⟩ := exists_return room hb k h1 h2
  exact Function.minimalPeriod_pos_of_mem_periodicPts (Function.mk_mem_periodicPts ht hk)

theorem minimalPeriod_le_hundred (room : GoMap) (hb : BijectiveRoom room) (k : Int)
    (h1 : 1 ≤ k) (h2 : k ≤ 100) : Function.minimalPeriod room.get k ≤ 100 := by
  obtain ⟨t, ht, ht100, hk⟩ := exists_return room hb k h1 h2
  exact (Function.IsPeriodicPt.minimalPeriod_le ht hk).trans ht100

theorem finds_iff_cycle (room : GoMap) (hb : BijectiveRoom room) (k : Int)
    (h1 : 1 ≤ k) (h2 : k ≤ 100) :
    Finds room k ↔ Function.minimalPeriod room.get k ≤ 50 := by
  rw [finds_iff_minimalPeriod]
  exact ⟨fun h => h.2, fun h => ⟨minimalPeriod_pos room hb k h1 h2, h⟩⟩

/-- The minimal period of a point is `n` when the point returns after `n` steps and not
earlier. -/
theorem minimalPeriod_eq_of_first_return (f : Int → Int) (k : Int) (n : Nat) (hn : 0 < n)
    (hret : f^[n] k = k) (hfirst : ∀ m, m < n → 0 < m → f^[m] k ≠ k) :
    Function.minimalPeriod f k = n := by
  have hper : Function.IsPeriodicPt f n k := hret
  have hle := hper.minimalPeriod_le hn
  have hpos := Function.minimalPeriod_pos_of_mem_periodicPts
    (Function.mk_mem_periodicPts hn hper)
  by_contra hne
  exact hfirst _ (by omega) hpos Function.iterate_minimalPeriod

/-! ### `runSimulation` in closed form -/

theorem runSimulation_eq (fuel : Nat) (g : Rng) (hg : Admissible g) (hfuel : 50 ≤ fuel) :
    runSimulation fuel g =
      .ok (decide (AllFind (roomOf (shufflePure 99 identityBoxes (g.draws 99)))),
        ⟨g.tape, g.pos + 99⟩) := by
  unfold runSimulation
  rw [generateRoom_eq g hg]
  simp only
  rw [evaluateRoom_spec fuel _ hfuel]

theorem identityBoxes_count (v : Int) (h1 : 1 ≤ v) (h2 : v ≤ 100) :
    identityBoxes.count v = 1 :=
  List.count_eq_one_of_mem identityBoxes_nodup ((mem_identityBoxes v).2 ⟨h1, h2⟩)

theorem roomOf_apply_nat (boxes : List Int) (i : Nat) (h1 : 1 ≤ i) (h2 : i ≤ 100) :
    roomOf boxes (i : Int) = boxes[i - 1]? := by
  unfold roomOf
  rw [if_pos (by omega)]
  congr 1
  omega

/-! ### The generated room and its cycles -/

/-- C1: for every admissible sequence of draws, `runSimulation` returns (given fuel for 50
entries of the walk loop), and it returns `true` if and only if every cycle of the room it
generated has length at most 50. The length of the cycle through box `k` is the minimal period
of `k` under the lookup `room[.]`; it is positive for every `k` in `1..100`. -/
theorem runSimulation_true_iff_cycles_le_50 (fuel : Nat) (g : Rng) (hg : Admissible g)
    (hfuel : 50 ≤ fuel) :
    ∃ boxes room g1 success,
      generateRoom g = .ok (boxes, room, g1) ∧
      runSimulation fuel g = .ok (success, g1) ∧
      (∀ i : Nat, 1 ≤ i → i ≤ 100 → room (i : Int) = boxes[i - 1]?) ∧
      (∀ k : Int, 1 ≤ k → k ≤ 100 → 0 < Function.minimalPeriod room.get k) ∧
      (success = true ↔
        ∀ k : Int, 1 ≤ k → k ≤ 100 → Function.minimalPeriod room.get k ≤ 50) := by
  have hb := roomOf_bijective _ (shuffled_perm g hg)
  refine ⟨_, _, _, _, generateRoom_eq g hg, runSimulation_eq fuel g hg hfuel,
    fun i h1 h2 => roomOf_apply_nat _ i h1 h2,
    fun k h1 h2 => minimalPeriod_pos _ hb k h1 h2, ?_⟩
  rw [decide_eq_true_iff, allFind_iff]
  constructor
  · intro h k h1 h2
    exact (finds_iff_cycle _ hb k h1 h2).1 (h k h1 h2)
  · intro h k h1 h2
    exact (finds_iff_cycle _ hb k h1 h2).2 (h k h1 h2)

/-- Witness of C1: the draws `j = 0`. -/
theorem runSimulation_true_iff_cycles_le_50_witness :
    Admissible zeroDraws ∧ 50 ≤ 50 ∧
    ∃ boxes room g1 success,
      generateRoom zeroDraws = .ok (boxes, room, g1) ∧
      runSimulation 50 zeroDraws = .ok (success, g1) ∧
      (∀ i : Nat, 1 ≤ i → i ≤ 100 → room (i : Int) = boxes[i - 1]?) ∧
      (∀ k : Int, 1 ≤ k → k ≤ 100 → 0 < Function.minimalPeriod room.get k) ∧
      (success = true ↔
        ∀ k : Int, 1 ≤ k → k ≤ 100 → Function.minimalPeriod room.get k ≤ 50) :=
  ⟨by decide, by decide,
    runSimulation_true_iff_cycles_le_50 50 zeroDraws (by decide) (by decide)⟩

/-- C2: for every admissible sequence of draws, the shuffled slice `boxes` has length 100 and
holds each value of `1..100` exactly once; the keys of `room` are exactly `1..100`, with
`room[i] = boxes[i-1]`, and `room` maps `1..100` one-to-one onto `1..100`. -/
theorem generateRoom_bijection (g : Rng) (hg : Admissible g) :
    ∃ boxes room g1,
      generateRoom g = .ok (boxes, room, g1) ∧
      boxes.length = 100 ∧
      (∀ v : Int, 1 ≤ v → v ≤ 100 → boxes.count v = 1) ∧
      (∀ x : Int, (room x).isSome = true ↔ 1 ≤ x ∧ x ≤ 100) ∧
      (∀ i : Nat, 1 ≤ i → i ≤ 100 → room (i : Int) = boxes[i - 1]?) ∧
      Set.BijOn room.get (Set.Icc 1 100) (Set.Icc 1 100) := by
  have hp := shuffled_perm g hg
  have hlen : (shufflePure 99 identityBoxes (g.draws 99)).length = 100 := by
    rw [hp.length_eq, identityBoxes_length]
  refine ⟨_, _, _, generateRoom_eq g hg, hlen, ?_, roomOf_isSome _ hlen,
    fun i h1 h2 => roomOf_apply_nat _ i h1 h2, roomOf_bijective _ hp⟩
  intro v h1 h2
  rw [hp.count_eq, identityBoxes_count v h1 h2]

/-- Witness of C2: the draws `j = i`. -/
theorem generateRoom_bijection_witness :
    Admissible identityDraws ∧
    ∃ boxes room g1,
      generateRoom identityDraws = .ok (boxes, room, g1) ∧
      boxes.length = 100 ∧
      (∀ v : Int, 1 ≤ v → v ≤ 100 → boxes.count v = 1) ∧
      (∀ x : Int, (room x).isSome = true ↔ 1 ≤ x ∧ x ≤ 100) ∧
      (∀ i : Nat, 1 ≤ i → i ≤ 100 → room (i : Int) = boxes[i - 1]?) ∧
      Set.BijOn room.get (Set.Icc 1 100) (Set.Icc 1 100) :=
  ⟨by decide, generateRoom_bijection identityDraws (by decide)⟩

/-! ### Draw sequences as lists -/

theorem drawsFrom_iff (i : Nat) (ds : List Nat) :
    DrawsFrom i ds ↔ ds.length = i ∧ ∀ k, k < i → ds.getD k 0 ≤ i - k := by
  induction i generalizing ds with
  | zero =>
    simp only [DrawsFrom]
    constructor
    · rintro rfl; simp
    · rintro ⟨h, -⟩; exact List.length_eq_zero.1 h
  | succ i ih =>
    cases ds with
    | nil => simp [DrawsFrom]
    | cons j ds =>
      simp only [DrawsFrom, ih, List.length_cons, Nat.add_right_cancel_iff]
      constructor
      · rintro ⟨hj, hlen, h⟩
        refine ⟨hlen, ?_⟩
        intro k hk
        cases k with
        | zero => simpa using hj
        | succ k =>
          have := h k (by omega)
          simp only [List.getD_eq_getElem?_getD, List.getElem?_cons_succ] at this ⊢
          omega
      · rintro ⟨hlen, h⟩
        refine ⟨by simpa using h 0 (by omega), hlen, ?_⟩
        intro k hk
        have := h (k + 1) (by omega)
        simp only [List.getD_eq_getElem?_getD, List.getElem?_cons_succ] at this ⊢
        omega

theorem draws_rngOfDraws (ds : List Nat) : (rngOfDraws ds).draws ds.length = ds := by
  apply List.ext_getElem
  · simp [Rng.draws]
  · intro n h1 h2
    simp [Rng.draws, rngOfDraws, List.getElem?_eq_getElem h2]

theorem admissible_rngOfDraws (ds : List Nat) (h : AdmissibleDraws ds) :
    Admissible (rngOfDraws ds) := by
  intro k hk
  simpa [rngOfDraws] using h.2 k hk

theorem generateRoom_rngOfDraws (ds : List Nat) (h : AdmissibleDraws ds) :
    generateRoom (rngOfDraws ds) = .ok (shufflePure 99 identityBoxes ds,
      roomOf (shufflePure 99 identityBoxes ds), ⟨(rngOfDraws ds).tape, 99⟩) := by
  have := generateRoom_eq (rngOfDraws ds) (admissible_rngOfDraws ds h)
  rw [show (rngOfDraws ds).draws 99 = ds by rw [← h.1]; exact draws_rngOfDraws ds] at this
  simpa [rngOfDraws] using this

theorem shufflePure_image :
    (shufflePure 99 identityBoxes) '' {ds | AdmissibleDraws ds} =
      {p | p.Perm identityBoxes} := by
  ext p
  simp only [Set.mem_image, Set.mem_setOf_eq]
  constructor
  · rintro ⟨ds, hds, rfl⟩
    exact shufflePure_perm 99 identityBoxes ds (by rw [identityBoxes_length]; omega)
      ((drawsFrom_iff 99 ds).2 hds)
  · intro hp
    obtain ⟨ds, hds, hres⟩ := shufflePure_surj 99 identityBoxes p identityBoxes_nodup
      (by rw [identityBoxes_length]; omega) hp (by
        intro m hm
        have h1 : p.length ≤ m := by rw [hp.length_eq, identityBoxes_length]; omega
        have h2 : identityBoxes.length ≤ m := by rw [identityBoxes_length]; omega
        rw [List.getElem?_eq_none h1, List.getElem?_eq_none h2])
    exact ⟨ds, (drawsFrom_iff 99 ds).1 hds, hres⟩

theorem shufflePure_injOn :
    Set.InjOn (shufflePure 99 identityBoxes) {ds | AdmissibleDraws ds} := by
  intro ds hds ds' hds' heq
  exact shufflePure_inj 99 identityBoxes ds ds' identityBoxes_nodup
    (by rw [identityBoxes_length]; omega) ((drawsFrom_iff 99 ds).2 hds)
    ((drawsFrom_iff 99 ds').2 hds') heq

theorem ncard_perms : Set.ncard {p : List Int | p.Perm identityBoxes} = Nat.factorial 100 := by
  have : {p : List Int | p.Perm identityBoxes} = ↑(identityBoxes.permutations.toFinset) := by
    ext p
    simp [List.mem_permutations]
  rw [this, Set.ncard_coe_Finset,
    List.toFinset_card_of_nodup (List.nodup_permutations _ identityBoxes_nodup),
    List.length_permutations, identityBoxes_length]

/-- C3: the shuffle maps the admissible draw sequences one-to-one onto the orderings of
`1..100`: every admissible sequence yields a permutation of `[1, ..., 100]`, every permutation
of `[1, ..., 100]` is the result of exactly one admissible sequence, and there are `100!`
admissible sequences. -/
theorem shuffle_bijection :
    (∀ ds, AdmissibleDraws ds → ∃ boxes room g1,
      generateRoom (rngOfDraws ds) = .ok (boxes, room, g1) ∧ boxes.Perm identityBoxes) ∧
    (∀ p : List Int, p.Perm identityBoxes → ∃! ds, AdmissibleDraws ds ∧
      ∃ room g1, generateRoom (rngOfDraws ds) = .ok (p, room, g1)) ∧
    Set.ncard {ds | AdmissibleDraws ds} = Nat.factorial 100 := by
  refine ⟨?_, ?_, ?_⟩
  · intro ds hds
    exact ⟨_, _, _, generateRoom_rngOfDraws ds hds,
      shufflePure_perm 99 identityBoxes ds (by rw [identityBoxes_length]; omega)
        ((drawsFrom_iff 99 ds).2 hds)⟩
  · intro p hp
    have hmem : p ∈ (shufflePure 99 identityBoxes) '' {ds | AdmissibleDraws ds} := by
      rw [shufflePure_image]; exact hp
    obtain ⟨ds, hds, hres⟩ := hmem
    refine ⟨ds, ⟨hds, _, _, by rw [generateRoom_rngOfDraws ds hds, hres]⟩, ?_⟩
    rintro ds' ⟨hds', room, g1, hgen⟩
    rw [generateRoom_rngOfDraws ds' hds'] at hgen
    have h1 : shufflePure 99 identityBoxes ds' = p := by
      injection hgen with hgen
      exact (Prod.mk.inj hgen).1
    exact shufflePure_injOn hds' hds (h1.trans hres.symm)
  · rw [← Set.ncard_image_of_injOn shufflePure_injOn, shufflePure_image, ncard_perms]

/-! ### Two rooms at the attempt limit -/

set_option maxRecDepth 100000 in
theorem boxesTwoFifty_perm : boxesTwoFifty.Perm identityBoxes := by decide

set_option maxRecDepth 100000 in
theorem boxesFiftyOne_perm : boxesFiftyOne.Perm identityBoxes := by decide

set_option maxRecDepth 100000 in
theorem boxesTwoFifty_period :
    Function.minimalPeriod (roomOf boxesTwoFifty).get 1 = 50 :=
  minimalPeriod_eq_of_first_return _ 1 50 (by decide) (by decide) (by decide)

set_option maxRecDepth 100000 in
theorem boxesFiftyOne_period :
    Function.minimalPeriod (roomOf boxesFiftyOne).get 1 = 51 :=
  minimalPeriod_eq_of_first_return _ 1 51 (by decide) (by decide) (by decide)

/-- C4: in a bijective room, the evaluation of prisoner `k` records `k` as successful
(appends `k` to `successfulPrisoners`) if and only if the cycle through `k` has length at most
50, and executes `return false` if and only if that cycle is longer. In particular a cycle of
length exactly 50 is a success, and a cycle of length 51 makes the evaluation of the room, and
so `runSimulation`, return `false`. -/
theorem prisoner_succeeds_iff_cycle_le_50 (fuel : Nat) (room : GoMap) (k : Int)
    (sp : List Int) (hb : BijectiveRoom room) (h1 : 1 ≤ k) (h2 : k ≤ 100)
    (hfuel : 50 ≤ fuel) :
    (prisonerBody fuel room k sp = .ok (some (sp ++ [k])) ↔
      Function.minimalPeriod room.get k ≤ 50) ∧
    (prisonerBody fuel room k sp = .ok none ↔ 50 < Function.minimalPeriod room.get k) ∧
    (Function.minimalPeriod room.get k = 50 →
      prisonerBody fuel room k sp = .ok (some (sp ++ [k]))) ∧
    (Function.minimalPeriod room.get k = 51 → evaluateRoom fuel room = .ok false) ∧
    (Function.minimalPeriod room.get k = 51 → ∀ g boxes g1,
      generateRoom g = .ok (boxes, room, g1) → runSimulation fuel g = .ok (false, g1)) := by
  have hbody := prisonerBody_spec fuel room k sp hfuel
  have hfind := finds_iff_cycle room hb k h1 h2
  have heval : Function.minimalPeriod room.get k = 51 → evaluateRoom fuel room = .ok false := by
    intro h51
    rw [evaluateRoom_spec fuel room hfuel]
    have : ¬ AllFind room := by
      intro hall
      have := hfind.1 ((allFind_iff room).1 hall k h1 h2)
      omega
    simp [this]
  refine ⟨?_, ?_, ?_, heval, ?_⟩
  · rw [hbody, ← hfind]
    by_cases hf : Finds room k
    · simp [hf]
    · simp [hf]
  · rw [hbody, ← not_le, ← hfind]
    by_cases hf : Finds room k
    · simp [hf]
    · simp [hf]
  · intro h50
    rw [hbody, if_pos (hfind.2 (by omega))]
  · intro h51 g boxes g1 hgen
    unfold runSimulation
    rw [hgen]
    simp only
    rw [heval h51]

/-- Witness of C4: prisoner 1 in a room with two cycles of length 50, and in a room with a
cycle of length 51. -/
theorem prisoner_succeeds_iff_cycle_le_50_witness :
    BijectiveRoom (roomOf boxesTwoFifty) ∧
    Function.minimalPeriod (roomOf boxesTwoFifty).get 1 = 50 ∧
    prisonerBody 50 (roomOf boxesTwoFifty) 1 [] = .ok (some ([] ++ [1])) ∧
    BijectiveRoom (roomOf boxesFiftyOne) ∧
    Function.minimalPeriod (roomOf boxesFiftyOne).get 1 = 51 ∧
    evaluateRoom 50 (roomOf boxesFiftyOne) = .ok false :=
  ⟨roomOf_bijective _ boxesTwoFifty_perm, boxesTwoFifty_period,
    (prisoner_succeeds_iff_cycle_le_50 50 (roomOf boxesTwoFifty) 1 []
      (roomOf_bijective _ boxesTwoFifty_perm) (by decide) (by decide) (by decide)).2.2.1
      boxesTwoFifty_period,
    roomOf_bijective _ boxesFiftyOne_perm, boxesFiftyOne_period,
    (prisoner_succeeds_iff_cycle_le_50 50 (roomOf boxesFiftyOne) 1 []
      (roomOf_bijective _ boxesFiftyOne_perm) (by decide) (by decide) (by decide)).2.2.2.1
      boxesFiftyOne_period⟩

/-- C5: generating the room cannot fail and the evaluation terminates with a boolean. With
fuel for 50 entries of the walk loop: for every admissible sequence of draws the room is
generated; for every room whatsoever, every prisoner and every local state the walk loop
returns after at most 49 iterations past the limit check; the evaluation of every room
returns a boolean; and so does `runSimulation`. -/
theorem runSimulation_terminates (fuel : Nat) (hfuel : 50 ≤ fuel) :
    (∀ g, Admissible g → ∃ boxes room g1, generateRoom g = .ok (boxes, room, g1)) ∧
    (∀ (room : GoMap) (k c : Int) (trail sp : List Int),
      ∃ w, walkLoop room k fuel 0 c trail sp = .ok w ∧ w.attempts ≤ 49) ∧
    (∀ room : GoMap, ∃ success, evaluateRoom fuel room = .ok success) ∧
    (∀ g, Admissible g → ∃ success g1, runSimulation fuel g = .ok (success, g1)) := by
  refine ⟨fun g hg => ⟨_, _, _, generateRoom_eq g hg⟩, ?_,
    fun room => ⟨_, evaluateRoom_spec fuel room hfuel⟩,
    fun g hg => ⟨_, _, runSimulation_eq fuel g hg hfuel⟩⟩
  intro room k c trail sp
  obtain ⟨w, hw, -, h49, -⟩ := walkLoop_spec room k fuel 0 c trail sp (by omega) (by omega)
  exact ⟨w, hw, h49⟩

/-- Witness of C5: fuel 50. -/
theorem runSimulation_terminates_witness :
    50 ≤ 50 ∧
    (∀ g, Admissible g → ∃ boxes room g1, generateRoom g = .ok (boxes, room, g1)) ∧
    (∀ (room : GoMap) (k c : Int) (trail sp : List Int),
      ∃ w, walkLoop room k 50 0 c trail sp = .ok w ∧ w.attempts ≤ 49) ∧
    (∀ room : GoMap, ∃ success, evaluateRoom 50 room = .ok success) ∧
    (∀ g, Admissible g → ∃ success g1, runSimulation 50 g = .ok (success, g1)) :=
  ⟨by decide, runSimulation_terminates 50 (by decide)⟩

/-! ### The identity room -/

theorem swapPure_self (boxes : List Int) (i : Nat) : swapPure boxes i i = boxes := by
  unfold swapPure
  apply List.ext_getElem?
  intro n
  by_cases hn : i = n
  · subst hn
    by_cases hlt : i < boxes.length
    · simp [List.getElem?_set, hlt, List.getElem?_eq_getElem hlt]
    · simp [List.getElem?_set, hlt]
      omega
  · rw [List.getElem?_set_ne hn, List.getElem?_set_ne hn]

theorem shufflePure_identity (i : Nat) (boxes : List Int) (g : Rng)
    (h : ∀ k, k < i → g.tape (g.pos + k) = i - k) :
    shufflePure i boxes (g.draws i) = boxes := by
  induction i generalizing g with
  | zero => simp [shufflePure]
  | succ i ih =>
    rw [draws_succ]
    simp only [shufflePure]
    have h0 : g.tape g.pos = i + 1 := by simpa using h 0 (by omega)
    rw [h0, swapPure_self]
    apply ih
    intro k hk
    have := h (k + 1) (by omega)
    simp only
    rw [show g.pos + 1 + k = g.pos + (k + 1) by omega]
    omega

theorem roomOf_identityBoxes_get (k : Int) (h1 : 1 ≤ k) (h2 : k ≤ 100) :
    (roomOf identityBoxes).get k = k := by
  have hk : k = (((k - 1).toNat : Nat) : Int) + 1 := by omega
  rw [hk, roomOf_get identityBoxes _ (by omega), identityBoxes_getElem? _ (by omega)]
  rfl

theorem prisonerLoop_identity (fuel : Nat) (room : GoMap) (n p : Nat) (sp : List Int)
    (h : ∀ m, m < n → room.get ((p + m : Nat) : Int) = ((p + m : Nat) : Int)) :
    prisonerLoop fuel room n p sp =
      .ok (some (sp ++ (List.range' p n).map fun (i : Nat) => (i : Int))) := by
  induction n generalizing p sp with
  | zero => simp [prisonerLoop]
  | succ n ih =>
    have h0 : room.get (p : Int) = (p : Int) := by simpa using h 0 (by omega)
    unfold prisonerLoop prisonerBody
    simp only
    rw [if_pos h0]
    simp only
    rw [ih (p + 1)]
    · simp [List.range'_succ]
    · intro m hm
      have := h (m + 1) (by omega)
      rwa [show p + (m + 1) = p + 1 + m by omega] at this

theorem evaluateRoom_identity (fuel : Nat) (room : GoMap)
    (h : ∀ k : Int, 1 ≤ k → k ≤ 100 → room.get k = k) :
    evaluateRoom fuel room = .ok true := by
  unfold evaluateRoom
  simp only
  rw [prisonerLoop_identity fuel room 100 1 [] (fun m hm => h _ (by omega) (by omega))]
  simp

/-- C6: when the generated room is the identity on `1..100`, `runSimulation` returns `true`,
and it does so for every amount of fuel of the walk loop, also with none at all: the walk loop,
the only place where the attempt limit occurs and which faults at once without fuel, is never
entered. The room is the identity when every draw `j` equals `i`. -/
theorem identity_room_succeeds (fuel : Nat) (g : Rng) (hg : Admissible g) :
    ∃ boxes room g1, generateRoom g = .ok (boxes, room, g1) ∧
      ((∀ k : Int, 1 ≤ k → k ≤ 100 → room.get k = k) →
        runSimulation fuel g = .ok (true, g1) ∧ runSimulation 0 g = .ok (true, g1)) ∧
      (∀ (k c : Int) (a : Nat) (trail sp : List Int),
        walkLoop room k 0 a c trail sp = .error .outOfFuel) ∧
      ((∀ i, i < 99 → g.tape (g.pos + i) = 99 - i) →
        ∀ k : Int, 1 ≤ k → k ≤ 100 → room.get k = k) := by
  refine ⟨_, _, _, generateRoom_eq g hg, ?_, fun _ _ _ _ _ => rfl, ?_⟩
  · intro hid
    unfold runSimulation
    rw [generateRoom_eq g hg]
    simp only
    rw [evaluateRoom_identity fuel _ hid, evaluateRoom_identity 0 _ hid]
    exact ⟨rfl, rfl⟩
  · intro hdraws k h1 h2
    rw [shufflePure_identity 99 identityBoxes g hdraws]
    exact roomOf_identityBoxes_get k h1 h2

/-- Witness of C6: with the draws `j = i` and no fuel for the walk loop, `runSimulation`
returns `true`. -/
theorem identity_room_succeeds_witness :
    Admissible identityDraws ∧ ∃ g1, runSimulation 0 identityDraws = .ok (true, g1) :=
  ⟨by decide,
    match identity_room_succeeds 0 identityDraws (by decide) with
    | ⟨_, _, g1, _, hrun, _, hid⟩ => ⟨g1, (hrun (hid (by decide))).2⟩⟩

/-! ### A single cycle of length 100 -/

set_option maxRecDepth 100000 in
theorem boxesRotated_period :
    Function.minimalPeriod (roomOf boxesRotated).get 1 = 100 :=
  minimalPeriod_eq_of_first_return _ 1 100 (by decide) (by decide) (by decide)

set_option maxRecDepth 100000 in
theorem generateRoom_zeroDraws :
    generateRoom zeroDraws = .ok (boxesRotated, roomOf boxesRotated, ⟨zeroDraws.tape, 99⟩) := by
  rw [generateRoom_eq zeroDraws (by decide)]
  have : shufflePure 99 identityBoxes (zeroDraws.draws 99) = boxesRotated := by decide
  rw [this]
  rfl

/-- C7: when the room is a single cycle of length 100, that is, when the cycle through box 1
has length 100, prisoner 1 executes `return false`: the first iteration of the prisoner loop
stops the loop, the evaluation of the room yields `false`, and `runSimulation` returns
`false` whenever it generated such a room. -/
theorem single_cycle_fails (fuel : Nat) (room : GoMap) (hfuel : 50 ≤ fuel)
    (hcycle : Function.minimalPeriod room.get 1 = 100) :
    prisonerBody fuel room 1 [] = .ok none ∧
    prisonerLoop fuel room 100 1 [] = .ok none ∧
    evaluateRoom fuel room = .ok false ∧
    ∀ g boxes g1, generateRoom g = .ok (boxes, room, g1) →
      runSimulation fuel g = .ok (false, g1) := by
  have hnot : ¬ Finds room 1 := by
    intro hf
    have := ((finds_iff_minimalPeriod room 1).1 hf).2
    omega
  have hbody : prisonerBody fuel room 1 [] = .ok none := by
    rw [prisonerBody_spec fuel room 1 [] hfuel, if_neg hnot]
  have hloop : prisonerLoop fuel room 100 1 [] = .ok none := by
    unfold prisonerLoop
    rw [show ((1 : Nat) : Int) = 1 from rfl, hbody]
  have heval : evaluateRoom fuel room = .ok false := by
    unfold evaluateRoom
    simp only
    rw [hloop]
  refine ⟨hbody, hloop, heval, ?_⟩
  intro g boxes g1 hgen
  unfold runSimulation
  rw [hgen]
  simp only
  rw [heval]

/-- Witness of C7: the room generated by the draws `j = 0`, which is `[2, 3, ..., 100, 1]`. -/
theorem single_cycle_fails_witness :
    50 ≤ 50 ∧ Function.minimalPeriod (roomOf boxesRotated).get 1 = 100 ∧
    generateRoom zeroDraws = .ok (boxesRotated, roomOf boxesRotated, ⟨zeroDraws.tape, 99⟩) ∧
    prisonerBody 50 (roomOf boxesRotated) 1 [] = .ok none ∧
    runSimulation 50 zeroDraws = .ok (false, ⟨zeroDraws.tape, 99⟩) :=
  ⟨by decide, boxesRotated_period, generateRoom_zeroDraws,
    (single_cycle_fails 50 (roomOf boxesRotated) (by decide) boxesRotated_period).1,
    (single_cycle_fails 50 (roomOf boxesRotated) (by decide) boxesRotated_period).2.2.2
      zeroDraws boxesRotated _ generateRoom_zeroDraws⟩

/-! ### The generator after a trial -/

/-- C8, amended: the one effect of `runSimulation` on state shared between trials is that
the global random generator has advanced by exactly 99 draws; its tape is unchanged, and
the call returns nothing else than the outcome. -/
theorem runSimulation_advances_generator (fuel : Nat) (g : Rng) (hg : Admissible g)
    (hfuel : 50 ≤ fuel) :
    ∃ success, runSimulation fuel g = .ok (success, ⟨g.tape, g.pos + 99⟩) :=
  ⟨_, runSimulation_eq fuel g hg hfuel⟩

/-- Witness of C8, amended: the draws `j = i`. -/
theorem runSimulation_advances_generator_witness :
    Admissible identityDraws ∧ 50 ≤ 50 ∧
    ∃ success, runSimulation 50 identityDraws =
      .ok (success, ⟨identityDraws.tape, identityDraws.pos + 99⟩) :=
  ⟨by decide, by decide, runSimulation_advances_generator 50 identityDraws (by decide)
    (by decide)⟩

/-- C8 as stated fails: after the call on the draws `j = 0` the global generator is at
position 99 and not at position 0 any more. -/
theorem runSimulation_mutates_generator :
    ∃ success g1, runSimulation 50 zeroDraws = .ok (success, g1) ∧
      zeroDraws.pos = 0 ∧ g1.pos = 99 ∧ g1 ≠ zeroDraws := by
  have hrun := runSimulation_eq 50 zeroDraws (by decide) (by decide)
  refine ⟨_, ⟨zeroDraws.tape, zeroDraws.pos + 99⟩, hrun, rfl, rfl, ?_⟩
  intro h
  have hpos : zeroDraws.pos + 99 = zeroDraws.pos := congrArg Rng.pos h
  omega

/-! ### `run` -/

theorem runLoop_zero (fuel : Nat) (s : Stats) (g : Rng) :
    runLoop fuel 0 s g = .ok (s, g) := rfl

set_option maxRecDepth 100000 in
theorem runLoop_succ (fuel n : Nat) (s : Stats) (g : Rng) :
    runLoop fuel (n + 1) s g =
      match runSimulation fuel g with
      | .error e => .error e
      | .ok (success, g1) =>
        if success then runLoop fuel n ⟨s.attempts + 1, s.successes + 1, s.fails⟩ g1
        else runLoop fuel n ⟨s.attempts + 1, s.successes, s.fails + 1⟩ g1 := rfl

theorem runLoop_spec (fuel : Nat) (n : Nat) (s : Stats) (g : Rng) (hfuel : 50 ≤ fuel)
    (hadm : AdmissibleRuns n g) :
    ∃ outcomes g1, Trials fuel g outcomes g1 ∧ outcomes.length = n ∧
      runLoop fuel n s g = .ok (⟨s.attempts + n, s.successes + outcomes.count true,
        s.fails + outcomes.count false⟩, g1) := by
  induction n generalizing s g with
  | zero => exact ⟨[], g, rfl, rfl, by rw [runLoop_zero]; simp⟩
  | succ n ih =>
    have hg : Admissible g := fun k hk => by simpa using hadm 0 (by omega) k hk
    have hrun := runSimulation_eq fuel g hg hfuel
    have hnext : AdmissibleRuns n ⟨g.tape, g.pos + 99⟩ := by
      intro t ht k hk
      have := hadm (t + 1) (by omega) k hk
      simp only
      rwa [show g.pos + 99 + 99 * t + k = g.pos + 99 * (t + 1) + k by omega]
    rw [runLoop_succ, hrun]
    simp only
    cases hb : decide (AllFind (roomOf (shufflePure 99 identityBoxes (g.draws 99))))
    · obtain ⟨outcomes, g1, htr, hlen, hloop⟩ :=
        ih ⟨s.attempts + 1, s.successes, s.fails + 1⟩ _ hnext
      refine ⟨false :: outcomes, g1, ⟨_, by rw [hrun, hb], htr⟩, by simp [hlen], ?_⟩
      simp only [hloop, Except.ok.injEq, Prod.mk.injEq, Stats.mk.injEq, and_true]
      simp
      omega
    · obtain ⟨outcomes, g1, htr, hlen, hloop⟩ :=
        ih ⟨s.attempts + 1, s.successes + 1, s.fails⟩ _ hnext
      refine ⟨true :: outcomes, g1, ⟨_, by rw [hrun, hb], htr⟩, by simp [hlen], ?_⟩
      simp only [hloop, Except.ok.injEq, Prod.mk.injEq, Stats.mk.injEq, and_true]
      simp
      omega

/-- C9: for every `runs >= 0`, `run(runs)` calls `runSimulation` exactly `runs` times, one
after the other, each call finding the generator as the one before left it; when the loop ends
`attempts = runs`, `successes` is the number of calls that returned `true`, `fails` the number
that returned `false`, and `successes + fails = attempts`. -/
theorem run_counts (fuel : Nat) (runs : Int) (seeded : Rng) (hruns : 0 ≤ runs)
    (hfuel : 50 ≤ fuel) (hadm : AdmissibleRuns runs.toNat seeded) :
    ∃ stats g1 outcomes,
      run fuel runs seeded = .ok (stats, g1) ∧
      Trials fuel seeded outcomes g1 ∧
      (outcomes.length : Int) = runs ∧
      (stats.attempts : Int) = runs ∧
      stats.successes = outcomes.count true ∧
      stats.fails = outcomes.count false ∧
      stats.successes + stats.fails = stats.attempts := by
  obtain ⟨outcomes, g1, htr, hlen, hloop⟩ :=
    runLoop_spec fuel runs.toNat ⟨0, 0, 0⟩ seeded hfuel hadm
  refine ⟨_, g1, outcomes, hloop, htr, by omega, by simp; omega, by simp, by simp, ?_⟩
  simp only [Nat.zero_add]
  rw [List.count_true_add_count_false, hlen]

/-- Witness of C9: three runs on the draws `j = 0`. -/
theorem run_counts_witness :
    (0 : Int) ≤ 3 ∧ 50 ≤ 50 ∧ AdmissibleRuns (3 : Int).toNat zeroDraws ∧
    ∃ stats g1 outcomes,
      run 50 3 zeroDraws = .ok (stats, g1) ∧
      Trials 50 zeroDraws outcomes g1 ∧
      (outcomes.length : Int) = 3 ∧
      (stats.attempts : Int) = 3 ∧
      stats.successes = outcomes.count true ∧
      stats.fails = outcomes.count false ∧
      stats.successes + stats.fails = stats.attempts :=
  ⟨by decide, by decide, by decide, run_counts 50 3 zeroDraws (by decide) (by decide)
    (by decide)⟩

/-! ### Determinism -/

theorem tape_eq_of_draws_eq (g g' : Rng) (n : Nat) (h : g.draws n = g'.draws n) (k : Nat)
    (hk : k < n) : g.tape (g.pos + k) = g'.tape (g'.pos + k) := by
  have h1 : (g.draws n)[k]? = (g'.draws n)[k]? := by rw [h]
  simpa [Rng.draws, List.getElem?_range hk] using h1

theorem admissible_of_draws_eq (g g' : Rng) (h : g.draws 99 = g'.draws 99)
    (hg : Admissible g) : Admissible g' := by
  intro k hk
  rw [← tape_eq_of_draws_eq g g' 99 h k hk]
  exact hg k hk

/-- C10: two executions of `runSimulation` that receive the same 99 draws generate the
same boxes and the same room and return the same boolean; the boxes, the room and the
outcome are functions of the 99 draws alone. -/
theorem runSimulation_deterministic (fuel : Nat) (hfuel : 50 ≤ fuel) :
    (∀ g g', Admissible g → g.draws 99 = g'.draws 99 →
      ∃ boxes room success g1 g1',
        generateRoom g = .ok (boxes, room, g1) ∧ generateRoom g' = .ok (boxes, room, g1') ∧
        runSimulation fuel g = .ok (success, g1) ∧
        runSimulation fuel g' = .ok (success, g1')) ∧
    (∃ (permutation : List Nat → List Int) (roomOfDraws : List Nat → GoMap)
        (outcome : List Nat → Bool),
      ∀ g, Admissible g → ∃ g1,
        generateRoom g = .ok (permutation (g.draws 99), roomOfDraws (g.draws 99), g1) ∧
        runSimulation fuel g = .ok (outcome (g.draws 99), g1)) := by
  constructor
  · intro g g' hg hsame
    have hg' := admissible_of_draws_eq g g' hsame hg
    refine ⟨_, _, _, _, ⟨g'.tape, g'.pos + 99⟩, generateRoom_eq g hg, ?_,
      runSimulation_eq fuel g hg hfuel, ?_⟩
    · rw [hsame]; exact generateRoom_eq g' hg'
    · rw [hsame]; exact runSimulation_eq fuel g' hg' hfuel
  · exact ⟨fun ds => shufflePure 99 identityBoxes ds,
      fun ds => roomOf (shufflePure 99 identityBoxes ds),
      fun ds => decide (AllFind (roomOf (shufflePure 99 identityBoxes ds))),
      fun g hg => ⟨_, generateRoom_eq g hg, runSimulation_eq fuel g hg hfuel⟩⟩

/-- Witness of C10: two different generators, at different positions, with the same next 99
draws. -/
theorem runSimulation_deterministic_witness :
    50 ≤ 50 ∧ Admissible zeroDraws ∧ zeroDraws.draws 99 = laterDraws.draws 99 ∧
    zeroDraws.pos ≠ laterDraws.pos ∧
    ∃ boxes room success g1 g1',
      generateRoom zeroDraws = .ok (boxes, room, g1) ∧
      generateRoom laterDraws = .ok (boxes, room, g1') ∧
      runSimulation 50 zeroDraws = .ok (success, g1) ∧
      runSimulation 50 laterDraws = .ok (success, g1') :=
  ⟨by decide, by decide, by decide, by decide,
    (runSimulation_deterministic 50 (by decide)).1 zeroDraws laterDraws (by decide)
      (by decide)⟩

/-! ### `main` -/

/-- C11: `main` rejects run counts below 1: it prints a message, never calls `run`, and so
executes no trial. For every run count `runs >= 1` it calls `run` exactly once, with exactly
that value; for `1 <= runs < 100` a warning is printed first and nothing else changes, and for
`runs >= 100` the call of `run` is all that `main` does. -/
theorem main_rejects_nonpositive_runs (fuel : Nat) (runs : Int) (seeded : Rng) :
    (runs < 1 →
      main fuel runs seeded = ([.println "runs must be greater than 0"], none) ∧
      runCalls (main fuel runs seeded).1 = []) ∧
    (1 ≤ runs →
      runCalls (main fuel runs seeded).1 = [runs] ∧
      (main fuel runs seeded).2 = some (run fuel runs seeded)) ∧
    (1 ≤ runs → runs < 100 →
      (main fuel runs seeded).1 =
        [.println "[WARN] Less than 100 runs may return inaccurate results.\n",
          .callRun runs]) ∧
    (100 ≤ runs → (main fuel runs seeded).1 = [.callRun runs]) := by
  refine ⟨?_, ?_, ?_, ?_⟩
  · intro h
    simp [main, h, runCalls]
  · intro h
    have h1 : ¬ runs < 1 := by omega
    by_cases h100 : runs < 100
    · simp [main, h1, h100, runCalls]
    · simp [main, h1, h100, runCalls]
  · intro h h100
    have h1 : ¬ runs < 1 := by omega
    simp [main, h1, h100]
  · intro h
    have h1 : ¬ runs < 1 := by omega
    have h100 : ¬ runs < 100 := by omega
    simp [main, h1, h100]

/-! ### The trace of a walk -/

theorem map_iterate_range_succ (f : Int → Int) (c : Int) (n : Nat) :
    (List.range (n + 1)).map (fun t => f^[t] c) =
      c :: (List.range n).map (fun t => f^[t] (f c)) := by
  rw [List.range_succ_eq_map]
  simp only [List.map_cons, List.map_map, Function.iterate_zero, id_eq]
  congr 1

theorem walkLoop_trace (room : GoMap) (k : Int) (fuel a : Nat) (c : Int) (trail sp : List Int)
    (ha : a ≤ 49) (hfuel : 50 ≤ fuel + a) :
    ∃ w n, walkLoop room k fuel a c trail sp = .ok w ∧
      w.attempts = a + n ∧
      w.trail = trail ++ (List.range n).map (fun t => room.get^[t] c) ∧
      (w.foundBox = true → 0 < n ∧ room.get^[n] c = k ∧
        (∀ t, 0 < t → t < n → room.get^[t] c ≠ k) ∧
        w.currentBoxContents = room.get^[n - 1] c) ∧
      (w.foundBox = false →
        a + n = 49 ∧ ∀ t, 0 < t → t ≤ n → room.get^[t] c ≠ k) := by
  induction fuel generalizing a c trail with
  | zero => omega
  | succ fuel ih =>
    unfold walkLoop
    by_cases h49 : a = 49
    · subst h49
      rw [if_pos rfl]
      refine ⟨_, 0, rfl, rfl, by simp, by simp, ?_⟩
      intro _
      exact ⟨rfl, fun t h1 h2 => by omega⟩
    · rw [if_neg h49]
      simp only
      by_cases hnext : room.get c = k
      · rw [if_pos hnext]
        refine ⟨_, 1, rfl, rfl, by simp, ?_, by simp⟩
        intro _
        exact ⟨by omega, by simpa using hnext, fun t h1 h2 => by omega, by simp⟩
      · rw [if_neg hnext]
        obtain ⟨w, n, hw, hatt, htrail, hfound, hnot⟩ :=
          ih (a + 1) (room.get c) (trail ++ [c]) (by omega) (by omega)
        refine ⟨w, n + 1, hw, by omega, ?_, ?_, ?_⟩
        · rw [htrail, map_iterate_range_succ]
          simp
        · intro hf
          obtain ⟨hpos, hret, hfirst, hcur⟩ := hfound hf
          refine ⟨by omega, by rw [Function.iterate_succ_apply]; exact hret, ?_, ?_⟩
          · intro t h1 h2
            cases t with
            | zero => omega
            | succ t =>
              rw [Function.iterate_succ_apply]
              cases t with
              | zero => simpa using hnext
              | succ t => exact hfirst (t + 1) (by omega) (by omega)
          · rw [hcur, ← Function.iterate_succ_apply]
            congr 1
            omega
        · intro hf
          obtain ⟨h49', hnever⟩ := hnot hf
          refine ⟨by omega, ?_⟩
          intro t h1 h2
          cases t with
          | zero => omega
          | succ t =>
            rw [Function.iterate_succ_apply]
            cases t with
            | zero => simpa using hnext
            | succ t => exact hnever (t + 1) (by omega) (by omega)

/-- The walk loop as entered by prisoner `k`, whose first box does not hold `k`. -/
theorem walkLoop_of_prisoner (room : GoMap) (k : Int) (fuel : Nat) (sp : List Int)
    (hfuel : 50 ≤ fuel) (hk : room.get k ≠ k) :
    ∃ w, walkLoop room k fuel 0 (room.get k) [k] sp = .ok w ∧
      w.trail = (List.range (w.attempts + 1)).map (fun t => room.get^[t] k) ∧
      w.attempts ≤ 49 ∧
      (w.foundBox = true → 0 < w.attempts ∧
        Function.minimalPeriod room.get k = w.attempts + 1) ∧
      (w.foundBox = false → w.attempts = 49 ∧
        ∀ t, 0 < t → t ≤ 50 → room.get^[t] k ≠ k) := by
  obtain ⟨w, n, hw, hatt, htrail, hfound, hnot⟩ :=
    walkLoop_trace room k fuel 0 (room.get k) [k] sp (by omega) (by omega)
  have hn : w.attempts = n := by omega
  have hiter : ∀ t, 0 < t → room.get^[t] k = room.get^[t - 1] (room.get k) := by
    intro t ht
    rw [← Function.iterate_succ_apply]
    congr 1
    omega
  refine ⟨w, hw, ?_, ?_, ?_, ?_⟩
  · rw [htrail, hn, map_iterate_range_succ]
    rfl
  · obtain ⟨w', hw', -, h49, -⟩ :=
      walkLoop_spec room k fuel 0 (room.get k) [k] sp (by omega) (by omega)
    rw [hw] at hw'
    cases hw'
    exact h49
  · intro hf
    obtain ⟨hpos, hret, hfirst, -⟩ := hfound hf
    refine ⟨by omega, ?_⟩
    rw [hn]
    apply minimalPeriod_eq_of_first_return _ _ _ (by omega)
    · rw [Function.iterate_succ_apply]; exact hret
    · intro m hm hm0
      rw [hiter m hm0]
      by_cases hm1 : m = 1
      · subst hm1; simpa using hk
      · exact hfirst (m - 1) (by omega) (by omega)
  · intro hf
    obtain ⟨h49, hnever⟩ := hnot hf
    refine ⟨by omega, ?_⟩
    intro t ht ht50
    rw [hiter t ht]
    by_cases ht1 : t = 1
    · subst ht1; simpa using hk
    · exact hnever (t - 1) (by omega) (by omega)

/-! ### Walks and cycle lengths -/

theorem cyclePrefix_length (room : GoMap) (k : Int) (n : Nat) :
    (cyclePrefix room k n).length = n := by
  simp [cyclePrefix]

theorem cyclePrefix_nodup (room : GoMap) (k : Int) (n : Nat)
    (hn : n ≤ Function.minimalPeriod room.get k) : (cyclePrefix room k n).Nodup := by
  unfold cyclePrefix
  apply List.Nodup.map_on _ (List.nodup_range n)
  intro x hx y hy hxy
  rw [List.mem_range] at hx hy
  exact (Function.iterate_eq_iterate_iff_of_lt_minimalPeriod (by omega) (by omega)).1 hxy

theorem cyclePrefix_mem_range (room : GoMap) (hb : BijectiveRoom room) (k : Int)
    (h1 : 1 ≤ k) (h2 : k ≤ 100) (n : Nat) (x : Int) (hx : x ∈ cyclePrefix room k n) :
    1 ≤ x ∧ x ≤ 100 := by
  unfold cyclePrefix at hx
  rw [List.mem_map] at hx
  obtain ⟨t, -, rfl⟩ := hx
  exact hb.mapsTo.iterate t ⟨h1, h2⟩

theorem minimalPeriod_gt_of_no_return (room : GoMap) (hb : BijectiveRoom room) (k : Int)
    (h1 : 1 ≤ k) (h2 : k ≤ 100) (n : Nat)
    (h : ∀ t, 0 < t → t ≤ n → room.get^[t] k ≠ k) :
    n < Function.minimalPeriod room.get k := by
  by_contra hc
  exact h _ (minimalPeriod_pos room hb k h1 h2) (by omega) Function.iterate_minimalPeriod

/-- In a bijective room the walk of a prisoner whose first box holds another number is
determined by the length of the prisoner's cycle. -/
theorem walkLoop_by_cycle (room : GoMap) (k : Int) (fuel : Nat) (sp : List Int)
    (hb : BijectiveRoom room) (h1 : 1 ≤ k) (h2 : k ≤ 100) (hfuel : 50 ≤ fuel)
    (hk : room.get k ≠ k) :
    ∃ w, walkLoop room k fuel 0 (room.get k) [k] sp = .ok w ∧
      w.trail = cyclePrefix room k (w.attempts + 1) ∧
      w.attempts + 1 ≤ Function.minimalPeriod room.get k ∧
      w.attempts ≤ 49 ∧
      (Function.minimalPeriod room.get k ≤ 50 →
        2 ≤ Function.minimalPeriod room.get k ∧ w.foundBox = true ∧
        w.attempts = Function.minimalPeriod room.get k - 1) ∧
      (50 < Function.minimalPeriod room.get k → w.foundBox = false ∧ w.attempts = 49) := by
  obtain ⟨w, hw, htrail, h49, hfound, hnot⟩ := walkLoop_of_prisoner room k fuel sp hfuel hk
  refine ⟨w, hw, htrail, ?_, h49, ?_, ?_⟩
  · cases hf : w.foundBox with
    | true => have := (hfound hf).2; omega
    | false =>
      have := minimalPeriod_gt_of_no_return room hb k h1 h2 50 (hnot hf).2
      have := (hnot hf).1
      omega
  · intro hle
    cases hf : w.foundBox with
    | true =>
      obtain ⟨hpos, hmp⟩ := hfound hf
      exact ⟨by omega, rfl, by omega⟩
    | false =>
      have := minimalPeriod_gt_of_no_return room hb k h1 h2 50 (hnot hf).2
      omega
  · intro hgt
    cases hf : w.foundBox with
    | true =>
      obtain ⟨hpos, hmp⟩ := hfound hf
      omega
    | false => exact ⟨rfl, (hnot hf).1⟩

theorem lookupKeys_le_50 (fuel : Nat) (room : GoMap) (k : Int) (hfuel : 50 ≤ fuel) :
    ∃ keys, lookupKeys fuel room k = .ok keys ∧ keys.length ≤ 50 := by
  unfold lookupKeys
  by_cases hk : room.get k = k
  · rw [if_pos hk]
    exact ⟨_, rfl, by simp⟩
  · rw [if_neg hk]
    obtain ⟨w, hw, htrail, h49, -⟩ := walkLoop_of_prisoner room k fuel [] hfuel hk
    rw [hw]
    exact ⟨_, rfl, by rw [htrail]; simp; omega⟩

theorem lookupKeys_by_cycle (fuel : Nat) (room : GoMap) (k : Int)
    (hb : BijectiveRoom room) (h1 : 1 ≤ k) (h2 : k ≤ 100) (hfuel : 50 ≤ fuel) :
    lookupKeys fuel room k =
      .ok (cyclePrefix room k (min (Function.minimalPeriod room.get k) 50)) := by
  unfold lookupKeys
  by_cases hk : room.get k = k
  · rw [if_pos hk]
    have : Function.minimalPeriod room.get k = 1 :=
      Function.minimalPeriod_eq_one_iff_isFixedPt.2 hk
    rw [this]
    rfl
  · rw [if_neg hk]
    obtain ⟨w, hw, htrail, -, -, hle, hgt⟩ :=
      walkLoop_by_cycle room k fuel [] hb h1 h2 hfuel hk
    rw [hw]
    simp only [htrail]
    congr 2
    by_cases h50 : Function.minimalPeriod room.get k ≤ 50
    · have := hle h50
      omega
    · have := hgt (by omega)
      omega

/-- C14: in a bijective room, with `c` the length of the cycle of prisoner `k`: the body of
the prisoner loop looks up `room` exactly `c` times and records a success when `c <= 50`,
and looks it up exactly 50 times and executes `return false` when `c > 50`. When the walk loop
is entered, the number of lookups is `attempts + 1` at its exit (the first lookup is attempt
1), with `attempts = c - 1` for `2 <= c <= 50` and `attempts = 49` for `c > 50`; the loop is
not entered exactly when `c = 1`. In no room whatsoever does a prisoner look up `room` more
than 50 times. -/
theorem attempt_counting (fuel : Nat) (room : GoMap) (k : Int) (sp : List Int)
    (hb : BijectiveRoom room) (h1 : 1 ≤ k) (h2 : k ≤ 100) (hfuel : 50 ≤ fuel) :
    (∃ keys, lookupKeys fuel room k = .ok keys ∧ keys.length ≤ 50 ∧
      (Function.minimalPeriod room.get k ≤ 50 →
        keys.length = Function.minimalPeriod room.get k ∧
        prisonerBody fuel room k sp = .ok (some (sp ++ [k]))) ∧
      (50 < Function.minimalPeriod room.get k →
        keys.length = 50 ∧ prisonerBody fuel room k sp = .ok none)) ∧
    (room.get k ≠ k →
      ∃ w, walkLoop room k fuel 0 (room.get k) [k] sp = .ok w ∧
        w.trail.length = w.attempts + 1 ∧
        (Function.minimalPeriod room.get k ≤ 50 →
          2 ≤ Function.minimalPeriod room.get k ∧ w.foundBox = true ∧
          w.attempts = Function.minimalPeriod room.get k - 1) ∧
        (50 < Function.minimalPeriod room.get k → w.foundBox = false ∧ w.attempts = 49)) ∧
    (room.get k = k ↔ Function.minimalPeriod room.get k = 1) ∧
    (∀ (room' : GoMap) (k' : Int),
      ∃ keys, lookupKeys fuel room' k' = .ok keys ∧ keys.length ≤ 50) := by
  have hbody := prisonerBody_spec fuel room k sp hfuel
  have hfind := finds_iff_cycle room hb k h1 h2
  refine ⟨⟨_, lookupKeys_by_cycle fuel room k hb h1 h2 hfuel, ?_, ?_, ?_⟩, ?_, ?_,
    fun room' k' => lookupKeys_le_50 fuel room' k' hfuel⟩
  · rw [cyclePrefix_length]; omega
  · intro hle
    rw [cyclePrefix_length, hbody, if_pos (hfind.2 hle)]
    exact ⟨by omega, rfl⟩
  · intro hgt
    rw [cyclePrefix_length, hbody, if_neg (fun hf => by have := hfind.1 hf; omega)]
    exact ⟨by omega, rfl⟩
  · intro hk
    obtain ⟨w, hw, htrail, -, -, hle, hgt⟩ :=
      walkLoop_by_cycle room k fuel sp hb h1 h2 hfuel hk
    exact ⟨w, hw, by rw [htrail, cyclePrefix_length], hle, hgt⟩
  · exact Function.minimalPeriod_eq_one_iff_isFixedPt.symm

/-- Witness of C14: prisoner 1 in the room with two cycles of length 50. -/
theorem attempt_counting_witness :
    BijectiveRoom (roomOf boxesTwoFifty) ∧
    Function.minimalPeriod (roomOf boxesTwoFifty).get 1 = 50 ∧
    ∃ keys, lookupKeys 50 (roomOf boxesTwoFifty) 1 = .ok keys ∧ keys.length = 50 :=
  ⟨roomOf_bijective _ boxesTwoFifty_perm, boxesTwoFifty_period,
    match attempt_counting 50 (roomOf boxesTwoFifty) 1 []
      (roomOf_bijective _ boxesTwoFifty_perm) (by decide) (by decide) (by decide) with
    | ⟨⟨keys, hkeys, _, hle, _⟩, _⟩ =>
      ⟨keys, hkeys, (hle (by rw [boxesTwoFifty_period])).1.trans boxesTwoFifty_period⟩⟩

/-! ### The state of the walk after some iterations -/

theorem cyclePrefix_succ (room : GoMap) (c : Int) (n : Nat) :
    cyclePrefix room c (n + 1) = c :: cyclePrefix room (room.get c) n :=
  map_iterate_range_succ room.get c n

theorem walkLoop_unroll (room : GoMap) (k : Int) (m fuel a : Nat) (c : Int)
    (trail sp : List Int) (ha : a + m ≤ 49)
    (hnot : ∀ t, t < m → room.get^[t + 1] c ≠ k) :
    walkLoop room k (fuel + m) a c trail sp =
      walkLoop room k fuel (a + m) (room.get^[m] c) (trail ++ cyclePrefix room c m) sp := by
  induction m generalizing a c trail with
  | zero => simp [cyclePrefix]
  | succ m ih =>
    have h0 : room.get c ≠ k := by simpa using hnot 0 (by omega)
    rw [show fuel + (m + 1) = fuel + m + 1 by omega]
    conv => lhs; unfold walkLoop
    rw [if_neg (by omega)]
    simp only
    rw [if_neg h0, ih (a + 1) (room.get c) (trail ++ [c]) (by omega) (by
      intro t ht
      have := hnot (t + 1) (by omega)
      rwa [Function.iterate_succ_apply] at this)]
    rw [cyclePrefix_succ, Function.iterate_succ_apply]
    simp only [List.append_assoc, List.singleton_append]
    rw [show a + 1 + m = a + (m + 1) by omega]

/-- C17: in a bijective room no prisoner opens a box twice. The keys looked up for prisoner
`k` are `k, room[k], room[room[k]], ...`, a list without repetition that starts with `k`.
When the walk loop is entered, `trail` at its exit is that list, and after each number `m`
of iterations that did not find `k` the loop is in the state with `attempts = m` and
`trail = [k, room[k], ..., room^m[k]]`, again a list without repetition. -/
theorem no_box_opened_twice (fuel : Nat) (room : GoMap) (k : Int) (sp : List Int)
    (hb : BijectiveRoom room) (h1 : 1 ≤ k) (h2 : k ≤ 100) (hfuel : 50 ≤ fuel) :
    (∃ keys, lookupKeys fuel room k = .ok keys ∧
      keys = cyclePrefix room k keys.length ∧ keys.Nodup ∧ keys.head? = some k) ∧
    (room.get k ≠ k →
      ∃ w, walkLoop room k fuel 0 (room.get k) [k] sp = .ok w ∧
        w.trail = cyclePrefix room k (w.attempts + 1) ∧ w.trail.Nodup ∧
        ∀ m, m < w.attempts →
          walkLoop room k fuel 0 (room.get k) [k] sp =
            walkLoop room k (fuel - m) m (room.get^[m + 1] k) (cyclePrefix room k (m + 1)) sp ∧
          (cyclePrefix room k (m + 1)).Nodup) := by
  have hpos := minimalPeriod_pos room hb k h1 h2
  refine ⟨⟨_, lookupKeys_by_cycle fuel room k hb h1 h2 hfuel, ?_, ?_, ?_⟩, ?_⟩
  · rw [cyclePrefix_length]
  · exact cyclePrefix_nodup room k _ (by omega)
  · have : min (Function.minimalPeriod room.get k) 50 =
        (min (Function.minimalPeriod room.get k) 50 - 1) + 1 := by omega
    rw [this, cyclePrefix_succ]
    rfl
  · intro hk
    obtain ⟨w, hw, htrail, hmp, h49, -, -⟩ :=
      walkLoop_by_cycle room k fuel sp hb h1 h2 hfuel hk
    refine ⟨w, hw, htrail, by rw [htrail]; exact cyclePrefix_nodup room k _ hmp, ?_⟩
    intro m hm
    refine ⟨?_, cyclePrefix_nodup room k _ (by omega)⟩
    have hun := walkLoop_unroll room k m (fuel - m) 0 (room.get k) [k] sp (by omega) (by
      intro t ht hret
      rw [← Function.iterate_succ_apply] at hret
      exact Function.not_isPeriodicPt_of_pos_of_lt_minimalPeriod (by omega)
        (show t + 1 + 1 < Function.minimalPeriod room.get k by omega) hret)
    rw [show fuel - m + m = fuel by omega] at hun
    rw [hun, cyclePrefix_succ, ← Function.iterate_succ_apply]
    simp

set_option maxRecDepth 100000 in
theorem boxesRotated_perm : boxesRotated.Perm identityBoxes := by decide

/-- Witness of C17: prisoner 1 in the room that is a single cycle of length 100. -/
theorem no_box_opened_twice_witness :
    BijectiveRoom (roomOf boxesRotated) ∧
    ∃ keys, lookupKeys 50 (roomOf boxesRotated) 1 = .ok keys ∧
      keys = cyclePrefix (roomOf boxesRotated) 1 keys.length ∧ keys.Nodup ∧
      keys.head? = some 1 :=
  ⟨roomOf_bijective _ boxesRotated_perm,
    (no_box_opened_twice 50 (roomOf boxesRotated) 1 []
      (roomOf_bijective _ boxesRotated_perm) (by decide) (by decide) (by decide)).1⟩

/-! ### The walk without the limit -/

theorem walkLoopNoLimit_spec (room : GoMap) (k : Int) (n fuel a : Nat) (c : Int)
    (trail sp : List Int) (hfuel : n < fuel) (hret : room.get^[n + 1] c = k)
    (hnot : ∀ t, t < n → room.get^[t + 1] c ≠ k) :
    ∃ w, walkLoopNoLimit room k fuel a c trail sp = .ok w ∧ w.foundBox = true ∧
      w.attempts = a + n + 1 ∧ w.successfulPrisoners = sp ++ [k] := by
  induction n generalizing fuel a c trail with
  | zero =>
    cases fuel with
    | zero => omega
    | succ fuel =>
      unfold walkLoopNoLimit
      simp only
      rw [if_pos (by simpa using hret)]
      exact ⟨_, rfl, rfl, rfl, rfl⟩
  | succ n ih =>
    cases fuel with
    | zero => omega
    | succ fuel =>
      unfold walkLoopNoLimit
      simp only
      rw [if_neg (by simpa using hnot 0 (by omega))]
      obtain ⟨w, hw, hf, hatt, hsp⟩ := ih fuel (a + 1) (room.get c) (trail ++ [c])
        (by omega) (by rw [← Function.iterate_succ_apply]; exact hret) (by
          intro t ht
          have := hnot (t + 1) (by omega)
          rwa [Function.iterate_succ_apply] at this)
      exact ⟨w, hw, hf, by omega, hsp⟩

/-- C15: in a bijective room, following the room from box `k` leads back to `k` after some
number `t` of lookups with `1 <= t <= 100`. So the walk loop without the limit check finds
`k` (with fuel for 100 iterations it ends with `foundBox = true`, after fewer than 100
iterations), and the walk loop of the program fails only at the limit check: when the loop
is left through `return false`, `attempts` is 49. -/
theorem walk_returns_to_start (room : GoMap) (k : Int) (sp : List Int)
    (hb : BijectiveRoom room) (h1 : 1 ≤ k) (h2 : k ≤ 100) :
    (∃ t, 1 ≤ t ∧ t ≤ 100 ∧ room.get^[t] k = k) ∧
    (room.get k ≠ k →
      ∃ w, walkLoopNoLimit room k 100 0 (room.get k) [k] sp = .ok w ∧
        w.foundBox = true ∧ w.attempts < 100 ∧ w.successfulPrisoners = sp ++ [k]) ∧
    (∀ fuel, 50 ≤ fuel → prisonerBody fuel room k sp = .ok none →
      ∃ w, walkLoop room k fuel 0 (room.get k) [k] sp = .ok w ∧
        w.foundBox = false ∧ w.attempts = 49) := by
  have hpos := minimalPeriod_pos room hb k h1 h2
  have hle := minimalPeriod_le_hundred room hb k h1 h2
  refine ⟨?_, ?_, ?_⟩
  · obtain ⟨t, ht, ht100, hk⟩ := exists_return room hb k h1 h2
    exact ⟨t, ht, ht100, hk⟩
  · intro hk
    have hne1 : Function.minimalPeriod room.get k ≠ 1 := fun h =>
      hk (Function.minimalPeriod_eq_one_iff_isFixedPt.1 h)
    obtain ⟨w, hw, hf, hatt, hsp⟩ := walkLoopNoLimit_spec room k
      (Function.minimalPeriod room.get k - 2) 100 0 (room.get k) [k] sp (by omega) (by
        have hiter : room.get^[Function.minimalPeriod room.get k - 2 + 1] (room.get k) =
            room.get^[Function.minimalPeriod room.get k] k := by
          rw [← Function.iterate_succ_apply]
          congr 1
          omega
        rw [hiter]
        exact Function.iterate_minimalPeriod) (by
        intro t ht hret
        rw [← Function.iterate_succ_apply] at hret
        exact Function.not_isPeriodicPt_of_pos_of_lt_minimalPeriod (by omega)
          (show t + 1 + 1 < Function.minimalPeriod room.get k by omega) hret)
    exact ⟨w, hw, hf, by omega, hsp⟩
  · intro fuel hfuel hnone
    have hk : room.get k ≠ k := by
      intro hk
      unfold prisonerBody at hnone
      simp only at hnone
      rw [if_pos hk] at hnone
      cases hnone
    obtain ⟨w, hw, -, -, hfound, hnot⟩ := walkLoop_of_prisoner room k fuel sp hfuel hk
    refine ⟨w, hw, ?_⟩
    cases hf : w.foundBox with
    | true =>
      unfold prisonerBody at hnone
      simp only at hnone
      rw [if_neg hk, hw] at hnone
      simp only [hf, if_true] at hnone
      cases hnone
    | false => exact ⟨rfl, (hnot hf).1⟩

/-- Witness of C15: prisoner 1 in the room that is a single cycle of length 100. -/
theorem walk_returns_to_start_witness :
    BijectiveRoom (roomOf boxesRotated) ∧
    (∃ t, 1 ≤ t ∧ t ≤ 100 ∧ (roomOf boxesRotated).get^[t] 1 = 1) :=
  ⟨roomOf_bijective _ boxesRotated_perm,
    (walk_returns_to_start (roomOf boxesRotated) 1 []
      (roomOf_bijective _ boxesRotated_perm) (by decide) (by decide)).1⟩

/-! ### The final statement -/

/-- C18: when the prisoner loop runs to completion, `successfulPrisoners` is
`[1, 2, ..., 100]`, so that the comparison in the final statement yields `true`. The
evaluation yields `false` exactly when the prisoner loop is left through the `return false`
of the walk loop, and `true` exactly when the loop runs to completion; the same holds for
`runSimulation` on the room it generated. -/
theorem final_statement_yields_true (fuel : Nat) (room : GoMap) (hfuel : 50 ≤ fuel) :
    (∀ sp, prisonerLoop fuel room 100 1 [] = .ok (some sp) →
      sp = identityBoxes ∧ decide (sp.length = 100) = true) ∧
    (evaluateRoom fuel room = .ok false ↔ prisonerLoop fuel room 100 1 [] = .ok none) ∧
    (evaluateRoom fuel room = .ok true ↔
      ∃ sp, prisonerLoop fuel room 100 1 [] = .ok (some sp)) ∧
    (∀ g boxes g1, generateRoom g = .ok (boxes, room, g1) →
      (runSimulation fuel g = .ok (false, g1) ↔
        prisonerLoop fuel room 100 1 [] = .ok none) ∧
      (runSimulation fuel g = .ok (true, g1) ↔
        ∃ sp, prisonerLoop fuel room 100 1 [] = .ok (some sp))) := by
  have hloop := prisonerLoop_spec fuel room 100 1 [] hfuel
  have hfalse : evaluateRoom fuel room = .ok false ↔
      prisonerLoop fuel room 100 1 [] = .ok none := by
    unfold evaluateRoom
    simp only
    rw [hloop]
    by_cases hall : ∀ m, m < 100 → Finds room ((1 + m : Nat) : Int)
    · rw [if_pos hall]; simp
    · rw [if_neg hall]; simp
  have htrue : evaluateRoom fuel room = .ok true ↔
      ∃ sp, prisonerLoop fuel room 100 1 [] = .ok (some sp) := by
    unfold evaluateRoom
    simp only
    rw [hloop]
    by_cases hall : ∀ m, m < 100 → Finds room ((1 + m : Nat) : Int)
    · rw [if_pos hall]; simp
    · rw [if_neg hall]; simp
  refine ⟨?_, hfalse, htrue, ?_⟩
  · intro sp hsp
    rw [hloop] at hsp
    by_cases hall : ∀ m, m < 100 → Finds room ((1 + m : Nat) : Int)
    · rw [if_pos hall] at hsp
      injection hsp with hsp
      injection hsp with hsp
      subst hsp
      exact ⟨by simp [identityBoxes], by simp⟩
    · rw [if_neg hall] at hsp
      cases hsp
  · intro g boxes g1 hgen
    have hrun : ∀ b, runSimulation fuel g = .ok (b, g1) ↔ evaluateRoom fuel room = .ok b := by
      intro b
      unfold runSimulation
      rw [hgen]
      simp only
      rw [evaluateRoom_spec fuel room hfuel]
      simp
    exact ⟨(hrun false).trans hfalse, (hrun true).trans htrue⟩

/-- Witness of C18: fuel 50 and the room that is a single cycle of length 100, in which the
prisoner loop is left through `return false`. -/
theorem final_statement_yields_true_witness :
    50 ≤ 50 ∧
    (evaluateRoom 50 (roomOf boxesRotated) = .ok false ↔
      prisonerLoop 50 (roomOf boxesRotated) 100 1 [] = .ok none) :=
  ⟨by decide, (final_statement_yields_true 50 (roomOf boxesRotated) (by decide)).2.1⟩

/-! ### Short-circuit evaluation -/

theorem allFindAlone_iff (room : GoMap) (order : List Int) (hp : order.Perm identityBoxes) :
    allFindAlone room order = true ↔ AllFind room := by
  unfold allFindAlone
  rw [List.all_eq_true, allFind_iff]
  constructor
  · intro h k h1 h2
    have := h k (hp.symm.subset ((mem_identityBoxes k).2 ⟨h1, h2⟩))
    simpa using this
  · intro h k hk
    have hk' := (mem_identityBoxes k).1 (hp.subset hk)
    simpa using h k hk'.1 hk'.2

/-- C13: the evaluation with its early return computes the full conjunction. Evaluated alone,
with any `successfulPrisoners`, prisoner `k` succeeds exactly when `k` finds their number
within 50 box openings; the result of the evaluation, and of `runSimulation` on the room it
generated, is the conjunction of these facts over the prisoners `1..100` taken in any order.
When the result is `false`, the loop has completed the iterations of all prisoners below the
smallest prisoner who fails alone, executes `return false` for that prisoner, and the
conjunction is false in every order, whatever the remaining prisoners do. -/
theorem short_circuit_is_conjunction (fuel : Nat) (room : GoMap) (hfuel : 50 ≤ fuel) :
    (∀ (k : Int) (sp : List Int),
      (prisonerBody fuel room k sp = .ok (some (sp ++ [k])) ↔ Finds room k) ∧
      (prisonerBody fuel room k sp = .ok none ↔ ¬ Finds room k)) ∧
    (∀ order : List Int, order.Perm identityBoxes →
      evaluateRoom fuel room = .ok (allFindAlone room order)) ∧
    (∀ g boxes g1 (order : List Int), generateRoom g = .ok (boxes, room, g1) →
      order.Perm identityBoxes →
      runSimulation fuel g = .ok (allFindAlone room order, g1)) ∧
    (evaluateRoom fuel room = .ok false →
      ∃ n : Nat, n < 100 ∧
        (∀ m : Nat, m < n → Finds room ((1 + m : Nat) : Int)) ∧
        ¬ Finds room ((1 + n : Nat) : Int) ∧
        prisonerLoop fuel room n 1 [] =
          .ok (some ((List.range' 1 n).map fun (i : Nat) => (i : Int))) ∧
        prisonerBody fuel room ((1 + n : Nat) : Int)
          ((List.range' 1 n).map fun (i : Nat) => (i : Int)) = .ok none ∧
        prisonerLoop fuel room 100 1 [] = .ok none ∧
        ∀ order : List Int, order.Perm identityBoxes → allFindAlone room order = false) := by
  have hbody : ∀ (k : Int) (sp : List Int),
      (prisonerBody fuel room k sp = .ok (some (sp ++ [k])) ↔ Finds room k) ∧
      (prisonerBody fuel room k sp = .ok none ↔ ¬ Finds room k) := by
    intro k sp
    rw [prisonerBody_spec fuel room k sp hfuel]
    by_cases hf : Finds room k
    · simp [hf]
    · simp [hf]
  have heval : ∀ order : List Int, order.Perm identityBoxes →
      evaluateRoom fuel room = .ok (allFindAlone room order) := by
    intro order hp
    have hbool : decide (AllFind room) = allFindAlone room order := by
      rw [Bool.eq_iff_iff, decide_eq_true_iff, allFindAlone_iff room order hp]
    rw [evaluateRoom_spec fuel room hfuel, hbool]
  refine ⟨hbody, heval, ?_, ?_⟩
  · intro g boxes g1 order hgen hp
    have hbool : decide (AllFind room) = allFindAlone room order := by
      rw [Bool.eq_iff_iff, decide_eq_true_iff, allFindAlone_iff room order hp]
    unfold runSimulation
    rw [hgen]
    simp only
    rw [evaluateRoom_spec fuel room hfuel, hbool]
  · intro hfalse
    rw [evaluateRoom_spec fuel room hfuel] at hfalse
    have hnall : ¬ AllFind room := by
      intro hall
      simp [hall] at hfalse
    have hex : ∃ n, n < 100 ∧ ¬ Finds room ((1 + n : Nat) : Int) := by
      unfold AllFind at hnall
      push_neg at hnall
      obtain ⟨n, hn, hnf⟩ := hnall
      exact ⟨n, hn, hnf⟩
    classical
    have hn := Nat.find_spec hex
    have hmin : ∀ m : Nat, m < Nat.find hex → Finds room ((1 + m : Nat) : Int) := by
      intro m hm
      by_contra hc
      exact Nat.find_min hex hm ⟨by omega, hc⟩
    have hfirst := prisonerLoop_spec fuel room (Nat.find hex) 1 [] hfuel
    rw [if_pos hmin] at hfirst
    have hfull := prisonerLoop_spec fuel room 100 1 [] hfuel
    rw [if_neg (show ¬ ∀ m, m < 100 → Finds room ((1 + m : Nat) : Int) from hnall)] at hfull
    refine ⟨Nat.find hex, hn.1, hmin, hn.2, by simpa using hfirst,
      ((hbody _ _).2).2 hn.2, hfull, ?_⟩
    intro order hp
    rw [Bool.eq_false_iff]
    intro h
    exact hnall ((allFindAlone_iff room order hp).1 h)

/-- Witness of C13: fuel 50 and the room with a cycle of length 51, evaluated in the order
`100, 99, ..., 1`. -/
theorem short_circuit_is_conjunction_witness :
    50 ≤ 50 ∧ identityBoxes.reverse.Perm identityBoxes ∧
    evaluateRoom 50 (roomOf boxesFiftyOne) =
      .ok (allFindAlone (roomOf boxesFiftyOne) identityBoxes.reverse) :=
  ⟨by decide, List.reverse_perm _,
    (short_circuit_is_conjunction 50 (roomOf boxesFiftyOne) (by decide)).2.1 _
      (List.reverse_perm _)⟩

/-! ### The iterations of the shuffle -/

theorem shuffleSteps_succ (i : Nat) (boxes : List Int) (g : Rng)
    (hlen : i + 1 < boxes.length) (h0 : g.tape g.pos ≤ i + 1) :
    shuffleSteps (i + 1) boxes g =
      ⟨i + 1, i + 1 + 1, g.tape g.pos, boxes, swapPure boxes (i + 1) (g.tape g.pos)⟩ ::
        shuffleSteps i (swapPure boxes (i + 1) (g.tape g.pos)) ⟨g.tape, g.pos + 1⟩ := by
  simp only [shuffleSteps, Rng.Intn]
  rw [if_neg (by omega)]
  simp only
  rw [swap_eq_ok boxes (i + 1) (g.tape g.pos) hlen (by omega)]

theorem admissible_tail (i : Nat) (g : Rng)
    (h : ∀ k, k < i + 1 → g.tape (g.pos + k) ≤ i + 1 - k) :
    ∀ k, k < i → (Rng.mk g.tape (g.pos + 1)).tape ((Rng.mk g.tape (g.pos + 1)).pos + k) ≤
      i - k := by
  intro k hk
  have := h (k + 1) (by omega)
  simp only
  rw [show g.pos + 1 + k = g.pos + (k + 1) by omega]
  omega

theorem shuffleSteps_length (i : Nat) (boxes : List Int) (g : Rng) (hlen : i < boxes.length)
    (h : ∀ k, k < i → g.tape (g.pos + k) ≤ i - k) :
    (shuffleSteps i boxes g).length = i := by
  induction i generalizing boxes g with
  | zero => simp [shuffleSteps]
  | succ i ih =>
    rw [shuffleSteps_succ i boxes g hlen (by simpa using h 0 (by omega))]
    simp only [List.length_cons, Nat.add_right_cancel_iff]
    exact ih _ _ (by rw [swapPure_length]; omega) (admissible_tail i g h)

theorem shuffleSteps_get (i : Nat) (boxes : List Int) (g : Rng) (hlen : i < boxes.length)
    (h : ∀ k, k < i → g.tape (g.pos + k) ≤ i - k) (k : Nat) (s : ShuffleStep)
    (hs : (shuffleSteps i boxes g)[k]? = some s) :
    s.i = i - k ∧ s.bound = s.i + 1 ∧ 0 < s.i ∧ s.j = g.tape (g.pos + k) ∧ s.j ≤ s.i ∧
      s.before.length = boxes.length ∧ swap s.before s.i s.j = .ok s.after ∧
      Rng.Intn ⟨g.tape, g.pos + k⟩ s.bound = .ok (s.j, ⟨g.tape, g.pos + k + 1⟩) := by
  induction i generalizing boxes g k with
  | zero => simp [shuffleSteps] at hs
  | succ i ih =>
    have h0 : g.tape g.pos ≤ i + 1 := by simpa using h 0 (by omega)
    rw [shuffleSteps_succ i boxes g hlen h0] at hs
    cases k with
    | zero =>
      simp only [List.getElem?_cons_zero, Option.some.injEq] at hs
      subst hs
      refine ⟨rfl, rfl, by simp, rfl, h0, rfl,
        swap_eq_ok boxes (i + 1) (g.tape g.pos) hlen (by omega), ?_⟩
      simp [Rng.Intn]
    | succ k =>
      simp only [List.getElem?_cons_succ] at hs
      obtain ⟨e1, e2, e3, e4, e5, e6, e7, e8⟩ :=
        ih _ _ (by rw [swapPure_length]; omega) (admissible_tail i g h) k hs
      simp only at e4 e8
      rw [swapPure_length] at e6
      refine ⟨by omega, e2, e3, ?_, e5, e6, e7, ?_⟩
      · rw [e4]; congr 1; omega
      · rw [show g.pos + (k + 1) = g.pos + 1 + k by omega]
        exact e8

theorem shuffleSteps_head (i : Nat) (boxes : List Int) (g : Rng) (hlen : i < boxes.length)
    (h : ∀ k, k < i → g.tape (g.pos + k) ≤ i - k) (s : ShuffleStep)
    (hs : (shuffleSteps i boxes g)[0]? = some s) : s.before = boxes := by
  cases i with
  | zero => simp [shuffleSteps] at hs
  | succ i =>
    rw [shuffleSteps_succ i boxes g hlen (by simpa using h 0 (by omega))] at hs
    simp only [List.getElem?_cons_zero, Option.some.injEq] at hs
    subst hs
    rfl

theorem shuffleSteps_chain (i : Nat) (boxes : List Int) (g : Rng) (hlen : i < boxes.length)
    (h : ∀ k, k < i → g.tape (g.pos + k) ≤ i - k) (k : Nat) (s s' : ShuffleStep)
    (hs : (shuffleSteps i boxes g)[k]? = some s)
    (hs' : (shuffleSteps i boxes g)[k + 1]? = some s') : s'.before = s.after := by
  induction i generalizing boxes g k with
  | zero => simp [shuffleSteps] at hs
  | succ i ih =>
    rw [shuffleSteps_succ i boxes g hlen (by simpa using h 0 (by omega))] at hs hs'
    simp only [List.getElem?_cons_succ] at hs'
    cases k with
    | zero =>
      simp only [List.getElem?_cons_zero, Option.some.injEq] at hs
      subst hs
      exact shuffleSteps_head i _ _ (by rw [swapPure_length]; omega) (admissible_tail i g h)
        s' hs'
    | succ k =>
      simp only [List.getElem?_cons_succ] at hs
      exact ih _ _ (by rw [swapPure_length]; omega) (admissible_tail i g h) k hs hs'

theorem shuffleSteps_above (i : Nat) (boxes : List Int) (g : Rng) (hlen : i < boxes.length)
    (h : ∀ k, k < i → g.tape (g.pos + k) ≤ i - k) (l : Nat) (s : ShuffleStep)
    (hs : (shuffleSteps i boxes g)[l]? = some s) (m : Nat) (hm : i < m) :
    s.after[m]? = boxes[m]? := by
  induction i generalizing boxes g l with
  | zero => simp [shuffleSteps] at hs
  | succ i ih =>
    have h0 : g.tape g.pos ≤ i + 1 := by simpa using h 0 (by omega)
    rw [shuffleSteps_succ i boxes g hlen h0] at hs
    have hsw := swapPure_getElem?_other boxes (i + 1) (g.tape g.pos) m (by omega) (by omega)
    cases l with
    | zero =>
      simp only [List.getElem?_cons_zero, Option.some.injEq] at hs
      subst hs
      exact hsw
    | succ l =>
      simp only [List.getElem?_cons_succ] at hs
      rw [ih _ _ (by rw [swapPure_length]; omega) (admissible_tail i g h) l hs (by omega)]
      exact hsw

theorem shuffleSteps_stable (i : Nat) (boxes : List Int) (g : Rng) (hlen : i < boxes.length)
    (h : ∀ k, k < i → g.tape (g.pos + k) ≤ i - k) (k l : Nat) (s s' : ShuffleStep)
    (hs : (shuffleSteps i boxes g)[k]? = some s)
    (hs' : (shuffleSteps i boxes g)[l]? = some s') (hkl : k ≤ l) :
    s'.after[s.i]? = s.after[s.i]? := by
  induction i generalizing boxes g k l with
  | zero => simp [shuffleSteps] at hs
  | succ i ih =>
    rw [shuffleSteps_succ i boxes g hlen (by simpa using h 0 (by omega))] at hs hs'
    cases k with
    | zero =>
      simp only [List.getElem?_cons_zero, Option.some.injEq] at hs
      subst hs
      cases l with
      | zero =>
        simp only [List.getElem?_cons_zero, Option.some.injEq] at hs'
        subst hs'
        rfl
      | succ l =>
        simp only [List.getElem?_cons_succ] at hs'
        exact shuffleSteps_above i _ _ (by rw [swapPure_length]; omega)
          (admissible_tail i g h) l s' hs' (i + 1) (by omega)
    | succ k =>
      cases l with
      | zero => omega
      | succ l =>
        simp only [List.getElem?_cons_succ] at hs hs'
        exact ih _ _ (by rw [swapPure_length]; omega) (admissible_tail i g h) k l hs hs'
          (by omega)

theorem shuffleSteps_final (i : Nat) (boxes : List Int) (g : Rng) (hlen : i < boxes.length)
    (h : ∀ k, k < i → g.tape (g.pos + k) ≤ i - k) (k : Nat) (s : ShuffleStep)
    (hs : (shuffleSteps i boxes g)[k]? = some s) :
    (shufflePure i boxes (g.draws i))[s.i]? = s.after[s.i]? ∧
      (k + 1 = i → s.after = shufflePure i boxes (g.draws i)) := by
  induction i generalizing boxes g k with
  | zero => simp [shuffleSteps] at hs
  | succ i ih =>
    rw [shuffleSteps_succ i boxes g hlen (by simpa using h 0 (by omega))] at hs
    rw [draws_succ]
    simp only [shufflePure]
    cases k with
    | zero =>
      simp only [List.getElem?_cons_zero, Option.some.injEq] at hs
      subst hs
      refine ⟨shufflePure_getElem?_above i _ _
        (drawsFrom_draws i _ (admissible_tail i g h)) (i + 1) (by omega), ?_⟩
      intro hi
      have : i = 0 := by omega
      subst this
      simp [shufflePure]
    | succ k =>
      simp only [List.getElem?_cons_succ] at hs
      obtain ⟨e1, e2⟩ := ih _ _ (by rw [swapPure_length]; omega) (admissible_tail i g h) k hs
      exact ⟨e1, fun hk => e2 (by omega)⟩

theorem swapPure_getElem?_right (boxes : List Int) (i j : Nat) (hi : i < boxes.length)
    (hj : j < boxes.length) : (swapPure boxes i j)[j]? = boxes[i]? := by
  unfold swapPure
  simp [List.getElem?_set, hj, List.getElem?_eq_getElem hi]

/-- What the swap of one iteration does to the slice: the values at the positions `i` and
`j` are exchanged and every other position keeps its value. -/
theorem shuffleSteps_exchange (i : Nat) (boxes : List Int) (g : Rng) (hlen : i < boxes.length)
    (h : ∀ k, k < i → g.tape (g.pos + k) ≤ i - k) (k : Nat) (s : ShuffleStep)
    (hs : (shuffleSteps i boxes g)[k]? = some s) :
    s.before.length = boxes.length ∧ s.after.length = boxes.length ∧
      (∃ bi bj, s.before[s.i]? = some bi ∧ s.before[s.j]? = some bj ∧
        s.after[s.i]? = some bj ∧ s.after[s.j]? = some bi) ∧
      (∀ m, m ≠ s.i → m ≠ s.j → s.after[m]? = s.before[m]?) := by
  obtain ⟨e1, -, -, -, e5, e6, e7, -⟩ := shuffleSteps_get i boxes g hlen h k s hs
  have hi : s.i < s.before.length := by omega
  have hj : s.j < s.before.length := by omega
  rw [swap_eq_ok s.before s.i s.j hi hj] at e7
  have hafter : s.after = swapPure s.before s.i s.j := by
    injection e7 with e7
    exact e7.symm
  refine ⟨e6, by rw [hafter, swapPure_length, e6], ⟨s.before[s.i], s.before[s.j],
    List.getElem?_eq_getElem hi, List.getElem?_eq_getElem hj, ?_, ?_⟩, ?_⟩
  · rw [hafter, swapPure_getElem?_left s.before s.i s.j hi hj, List.getElem?_eq_getElem hj]
  · rw [hafter, swapPure_getElem?_right s.before s.i s.j hi hj, List.getElem?_eq_getElem hi]
  · intro m hmi hmj
    rw [hafter]
    exact swapPure_getElem?_other s.before s.i s.j m hmi hmj

/-- C12: the shuffle is the Fisher-Yates procedure on `[1, 2, ..., 100]`. For admissible
draws the loop executes 99 iterations; iteration `k` (counted from 0) is at position
`i = 99 - k`, makes the one call `rand.Intn(i + 1)`, whose argument is `100 - k`, receives the
`k`-th draw `j <= i` and swaps `boxes[i]` and `boxes[j]`: after the iteration position `i`
holds the value that position `j` held before and position `j` the value that position `i`
held before, every other position holds what it did, and the length is still 100. The first
iteration starts from `[1, ..., 100]`, each later one from the result of the one before, and
the last one leaves the boxes that the room is built from. Whatever the outcome of the trial,
the generator has advanced by exactly 99 draws. Once position `i` has been processed,
`boxes[i]` keeps its value in all later iterations and in the final boxes. -/
theorem shuffle_is_fisher_yates (fuel : Nat) (g : Rng) (hg : Admissible g)
    (hfuel : 50 ≤ fuel) :
    fillBoxes 100 1 [] = identityBoxes ∧
    (shuffleSteps 99 identityBoxes g).length = 99 ∧
    (∀ (k : Nat) (s : ShuffleStep), (shuffleSteps 99 identityBoxes g)[k]? = some s →
      s.i = 99 - k ∧ 0 < s.i ∧ s.bound = s.i + 1 ∧ s.bound = 100 - k ∧
      s.j = g.tape (g.pos + k) ∧ s.j ≤ s.i ∧
      Rng.Intn ⟨g.tape, g.pos + k⟩ s.bound = .ok (s.j, ⟨g.tape, g.pos + k + 1⟩) ∧
      swap s.before s.i s.j = .ok s.after) ∧
    (∀ (k : Nat) (s : ShuffleStep), (shuffleSteps 99 identityBoxes g)[k]? = some s →
      s.before.length = 100 ∧ s.after.length = 100 ∧
      (∃ bi bj, s.before[s.i]? = some bi ∧ s.before[s.j]? = some bj ∧
        s.after[s.i]? = some bj ∧ s.after[s.j]? = some bi) ∧
      (∀ m, m ≠ s.i → m ≠ s.j → s.after[m]? = s.before[m]?)) ∧
    (∀ s : ShuffleStep, (shuffleSteps 99 identityBoxes g)[0]? = some s →
      s.before = identityBoxes) ∧
    (∀ (k : Nat) (s s' : ShuffleStep), (shuffleSteps 99 identityBoxes g)[k]? = some s →
      (shuffleSteps 99 identityBoxes g)[k + 1]? = some s' → s'.before = s.after) ∧
    (∃ boxes room success,
      generateRoom g = .ok (boxes, room, ⟨g.tape, g.pos + 99⟩) ∧
      runSimulation fuel g = .ok (success, ⟨g.tape, g.pos + 99⟩) ∧
      (∀ s : ShuffleStep, (shuffleSteps 99 identityBoxes g)[98]? = some s → s.after = boxes) ∧
      (∀ (k : Nat) (s : ShuffleStep), (shuffleSteps 99 identityBoxes g)[k]? = some s →
        boxes[s.i]? = s.after[s.i]?)) ∧
    (∀ (k l : Nat) (s s' : ShuffleStep), (shuffleSteps 99 identityBoxes g)[k]? = some s →
      (shuffleSteps 99 identityBoxes g)[l]? = some s' → k ≤ l →
      s'.after[s.i]? = s.after[s.i]?) := by
  have hlen : 99 < identityBoxes.length := by rw [identityBoxes_length]; omega
  refine ⟨fillBoxes_identity, shuffleSteps_length 99 identityBoxes g hlen hg, ?_, ?_,
    fun s hs => shuffleSteps_head 99 identityBoxes g hlen hg s hs,
    fun k s s' hs hs' => shuffleSteps_chain 99 identityBoxes g hlen hg k s s' hs hs',
    ⟨_, _, _, generateRoom_eq g hg, runSimulation_eq fuel g hg hfuel, ?_, ?_⟩,
    fun k l s s' hs hs' hkl => shuffleSteps_stable 99 identityBoxes g hlen hg k l s s' hs hs'
      hkl⟩
  · intro k s hs
    obtain ⟨e1, e2, e3, e4, e5, -, e7, e8⟩ := shuffleSteps_get 99 identityBoxes g hlen hg k s hs
    exact ⟨e1, e3, e2, by omega, e4, e5, e8, e7⟩
  · intro k s hs
    obtain ⟨e1, e2, e3, e4⟩ := shuffleSteps_exchange 99 identityBoxes g hlen hg k s hs
    rw [identityBoxes_length] at e1 e2
    exact ⟨e1, e2, e3, e4⟩
  · intro s hs
    exact (shuffleSteps_final 99 identityBoxes g hlen hg 98 s hs).2 rfl
  · intro k s hs
    exact (shuffleSteps_final 99 identityBoxes g hlen hg k s hs).1

/-- Witness of C12: with the draws `j = 0` the first iteration is at position 99, calls
`rand.Intn(100)`, receives 0 and exchanges the values 100 and 1 of the positions 99 and 0. -/
theorem shuffle_is_fisher_yates_witness :
    Admissible zeroDraws ∧ 50 ≤ 50 ∧ (shuffleSteps 99 identityBoxes zeroDraws).length = 99 ∧
    ∃ s : ShuffleStep, (shuffleSteps 99 identityBoxes zeroDraws)[0]? = some s ∧
      s.i = 99 ∧ s.bound = 100 ∧ s.j = 0 ∧ s.before = identityBoxes ∧
      s.after[99]? = some 1 ∧ s.after[0]? = some 100 ∧
      ∀ m, m ≠ 99 → m ≠ 0 → s.after[m]? = identityBoxes[m]? := by
  obtain ⟨-, hlen, hstep, hex, hhead, -⟩ :=
    shuffle_is_fisher_yates 50 zeroDraws (by decide) (by decide)
  refine ⟨by decide, by decide, hlen, ?_⟩
  have h0 : 0 < (shuffleSteps 99 identityBoxes zeroDraws).length := by omega
  obtain ⟨s, hs⟩ : ∃ s, (shuffleSteps 99 identityBoxes zeroDraws)[0]? = some s :=
    ⟨_, List.getElem?_eq_getElem h0⟩
  obtain ⟨e1, -, -, e4, e5, -⟩ := hstep 0 s hs
  obtain ⟨-, -, ⟨bi, bj, b1, b2, b3, b4⟩, hother⟩ := hex 0 s hs
  have hb := hhead s hs
  have hi : s.i = 99 := e1
  have hj : s.j = 0 := e5
  rw [hi, hb, identityBoxes_getElem? 99 (by omega)] at b1
  rw [hj, hb, identityBoxes_getElem? 0 (by omega)] at b2
  rw [hi] at b3
  rw [hj] at b4
  refine ⟨s, hs, hi, by omega, hj, hb, ?_, ?_, ?_⟩
  · rw [b3, ← b2]; rfl
  · rw [b4, ← b1]; rfl
  · intro m h99 hm0
    rw [← hb]
    exact hother m (by rw [hi]; exact h99) (by rw [hj]; exact hm0)

/-- C16: for admissible draws `runSimulation` returns without a fault and never reads the
zero value of a missing key. In every iteration of the shuffle the argument of `rand.Intn`
is at least 2 and the indices `i` and `j` are within `0..99` of a slice of length 100;
`boxes[i-1]` exists for every `i` in `1..100` and is the value stored under the key `i`; and
every key `x` of a lookup `room[x]` for a prisoner `1..100` lies in `1..100` and is a key of
the room. -/
theorem runSimulation_never_panics (fuel : Nat) (g : Rng) (hg : Admissible g)
    (hfuel : 50 ≤ fuel) :
    ∃ boxes room success g1,
      generateRoom g = .ok (boxes, room, g1) ∧
      runSimulation fuel g = .ok (success, g1) ∧
      (shuffleSteps 99 identityBoxes g).length = 99 ∧
      (∀ s ∈ shuffleSteps 99 identityBoxes g,
        2 ≤ s.bound ∧ s.before.length = 100 ∧ s.i ≤ 99 ∧ s.j ≤ 99 ∧
        swap s.before s.i s.j = .ok s.after) ∧
      (∀ i : Nat, 1 ≤ i → i ≤ 100 →
        ∃ v, boxes[i - 1]? = some v ∧ room (i : Int) = some v) ∧
      (∀ k : Int, 1 ≤ k → k ≤ 100 →
        ∃ keys, lookupKeys fuel room k = .ok keys ∧
          ∀ x ∈ keys, 1 ≤ x ∧ x ≤ 100 ∧ (room x).isSome = true) := by
  have hlen : 99 < identityBoxes.length := by rw [identityBoxes_length]; omega
  have hp := shuffled_perm g hg
  have hl : (shufflePure 99 identityBoxes (g.draws 99)).length = 100 := by
    rw [hp.length_eq, identityBoxes_length]
  have hb := roomOf_bijective _ hp
  refine ⟨_, _, _, _, generateRoom_eq g hg, runSimulation_eq fuel g hg hfuel,
    shuffleSteps_length 99 identityBoxes g hlen hg, ?_, ?_, ?_⟩
  · intro s hs
    obtain ⟨k, hk⟩ := List.mem_iff_getElem?.1 hs
    obtain ⟨e1, e2, e3, e4, e5, e6, e7, -⟩ :=
      shuffleSteps_get 99 identityBoxes g hlen hg k s hk
    rw [identityBoxes_length] at e6
    exact ⟨by omega, e6, by omega, by omega, e7⟩
  · intro i h1 h2
    have hi : i - 1 < (shufflePure 99 identityBoxes (g.draws 99)).length := by omega
    exact ⟨_, List.getElem?_eq_getElem hi, by
      rw [roomOf_apply_nat _ i h1 h2, List.getElem?_eq_getElem hi]⟩
  · intro k h1 h2
    refine ⟨_, lookupKeys_by_cycle fuel _ k hb h1 h2 hfuel, ?_⟩
    intro x hx
    have hr := cyclePrefix_mem_range _ hb k h1 h2 _ x hx
    exact ⟨hr.1, hr.2, (roomOf_isSome _ hl x).2 hr⟩

/-- Witness of C16: the draws `j = 0`. -/
theorem runSimulation_never_panics_witness :
    Admissible zeroDraws ∧ 50 ≤ 50 ∧
    ∃ boxes room success g1,
      generateRoom zeroDraws = .ok (boxes, room, g1) ∧
      runSimulation 50 zeroDraws = .ok (success, g1) :=
  ⟨by decide, by decide,
    match runSimulation_never_panics 50 zeroDraws (by decide) (by decide) with
    | ⟨boxes, room, success, g1, hgen, hrun, _⟩ => ⟨boxes, room, success, g1, hgen, hrun⟩⟩

end Prisoners
